import Mathlib

/-!
Shallow embedding of the `bencode` Go package (bencode.go, reflect.go) and
proofs about it.

Modelling conventions:
* Go byte strings and Go `string` values are modelled as `List Nat` (one
  entry per raw byte).  Dictionary keys are compared and sorted by raw
  bytes, exactly as Go's `sort.Strings` does.
* Go `int`/`int64` are modelled as unbounded `Int`; all integers appearing
  in the claims are far from the 64-bit boundary, and the code never
  exercises overflow on its own output.
* A Go function returning `([]byte, error)` is modelled as `GoResult`,
  where a `nil` slice is represented by `[]`.
* A decode operation returning `(int, error)` that can also panic
  (index/slice out of range) is modelled as `DRes`: `.ok` carries the
  result and the returned byte count, `.err` carries the returned count and
  the error message, `.panic` marks an unrecoverable runtime fault.
  Decoding functions additionally take a fuel parameter (first argument) to
  make the loops structurally recursive; `.fuelOut` marks fuel exhaustion
  and is shown unreachable for sufficient fuel in every theorem below.
-/

/-! ### Byte constants (ASCII codes used by the wire format) -/

def cI : Nat := 105   -- the letter i
def cE : Nat := 101   -- the letter e
def cL : Nat := 108   -- the letter l
def cD : Nat := 100   -- the letter d
def cColon : Nat := 58
def cMinus : Nat := 45
def cPlus : Nat := 43
def cComma : Nat := 44

/-- Raw bytes of a string literal (all literals used below are ASCII). -/
def strBytes (s : String) : List Nat := s.data.map Char.toNat

/-! ### Decimal printing and parsing (strconv.Itoa / ParseInt / Atoi) -/

/-- Decimal digits of `n` (ASCII codes), fuelled so that it is structurally
recursive; `natToDec` instantiates the fuel with `n` itself, which is always
sufficient. -/
def natToDecAux : Nat → Nat → List Nat
  | 0, n => [48 + n % 10]
  | fuel + 1, n => if n < 10 then [48 + n] else natToDecAux fuel (n / 10) ++ [48 + n % 10]

def natToDec (n : Nat) : List Nat := natToDecAux n n

/-- Decimal representation of an integer: `strconv.Itoa`. -/
def intToDec (i : Int) : List Nat :=
  if i < 0 then cMinus :: natToDec i.natAbs else natToDec i.natAbs

def isDigitB (c : Nat) : Bool := 48 ≤ c && c ≤ 57

/-- Accumulating digit parser: fails on the first non-digit byte. -/
def digitsAux : List Nat → Nat → Option Nat
  | [], acc => some acc
  | c :: rest, acc => if isDigitB c then digitsAux rest (acc * 10 + (c - 48)) else none

/-- Parse a nonempty all-digit byte list; `none` otherwise. -/
def digitsOf : List Nat → Option Nat
  | [] => none
  | c :: rest => digitsAux (c :: rest) 0

/-- Model of `strconv.ParseInt`/`strconv.Atoi` on the byte list of the input
string: an optional sign followed by a nonempty digit span.  (Overflow is not
modelled; the integers are unbounded here.) -/
def parseGoInt (s : List Nat) : Option Int :=
  match s with
  | [] => none
  | c :: rest =>
    if c = cMinus then (digitsOf rest).map (fun n => -(n : Int))
    else if c = cPlus then (digitsOf rest).map (fun n => (n : Int))
    else (digitsOf (c :: rest)).map (fun n => (n : Int))

/-- Scan a byte list for the first occurrence of `stop`; returns the bytes
before it and its index.  `none` means the scan ran off the end of the
buffer, which in the Go source is an out-of-range index (a panic). -/
def scanUntil (stop : Nat) : List Nat → Option (List Nat × Nat)
  | [] => none
  | c :: rest =>
    if c = stop then some ([], 0)
    else (scanUntil stop rest).map (fun p => (c :: p.1, p.2 + 1))

/-! ### The value taxonomy

`GoValue` models the Go values that `Marshal` dispatches on (bencode.go
lines 33-48): signed/unsigned integers, strings, byte slices (the
`[]uint8` special case of `marshalList`, line 63), slices/arrays of other
element types, string-keyed maps, structs, and a value of an unsupported
shape (`complex128`; its payload is never inspected by the encoder, so it
carries none here).

A struct field is a `FieldInfo × GoValue`: field identifier, optional
`bencode` tag (raw bytes of the whole tag value), and an exported flag
(`PkgPath == ""` in the source), paired with the field's current value.

`VMap` carries the map's entries in iteration order; Go map keys are
unique, which theorems assume through `Nodup` hypotheses or the `WFb`
predicate.  `VBytes []`, `VList []`, `VMap []` stand for the `nil`
slice/map (the zero value); a non-nil empty slice is not distinguished. -/

abbrev FieldInfo : Type := List Nat × Option (List Nat) × Bool

inductive GoValue : Type where
  | VInt (i : Int)
  | VString (s : List Nat)
  | VBytes (b : List Nat)
  | VList (xs : List GoValue)
  | VMap (entries : List (List Nat × GoValue))
  | VStruct (fields : List (FieldInfo × GoValue))
  | VComplex
deriving Repr

open GoValue

/-! `reflect.Value.IsZero`: whether the value is its type's zero value.
For slices and maps the zero value is `nil`, represented by `[]` (see the
taxonomy comment).  `VComplex` models a nonzero complex number. -/
mutual
def IsZero : GoValue → Bool
  | .VInt i => i = 0
  | .VString s => s.isEmpty
  | .VBytes b => b.isEmpty
  | .VList xs => xs.isEmpty
  | .VMap entries => entries.isEmpty
  | .VStruct fields => fieldsAllZero fields
  | .VComplex => false

def fieldsAllZero : List (FieldInfo × GoValue) → Bool
  | [] => true
  | (_, v) :: rest => IsZero v && fieldsAllZero rest
end

/-! Well-formedness of the model: every `VMap`'s keys are distinct, at every
depth.  Every value reachable from a real Go map satisfies this, since Go
map keys are unique. -/
mutual
def WFb : GoValue → Bool
  | .VInt _ => true
  | .VString _ => true
  | .VBytes _ => true
  | .VList xs => WFbList xs
  | .VMap entries => (entries.map Prod.fst).Nodup && WFbPairs entries
  | .VStruct fields => WFbFields fields
  | .VComplex => true

def WFbList : List GoValue → Bool
  | [] => true
  | v :: vs => WFb v && WFbList vs

def WFbPairs : List (List Nat × GoValue) → Bool
  | [] => true
  | (_, v) :: rest => WFb v && WFbPairs rest

def WFbFields : List (FieldInfo × GoValue) → Bool
  | [] => true
  | (_, v) :: rest => WFb v && WFbFields rest
end

/-! ### Encoding (bencode.go lines 26-153) -/

/-- `marshalInt` (line 55): `"i" + strconv.Itoa(i) + "e"`. -/
def marshalInt (i : Int) : List Nat := cI :: intToDec i ++ [cE]

/-- `marshalString` (line 59): `strconv.Itoa(len(str)) + ":" + str`. -/
def marshalString (s : List Nat) : List Nat := natToDec s.length ++ cColon :: s

/-- Result of a Go `([]byte, error)` function; a `nil` byte slice is `[]`. -/
structure GoResult where
  bytes : List Nat
  err : Option String
deriving Repr, DecidableEq

/-- `parseTag` (lines 150-153): split the tag at the first comma;
`omit` holds when there is no comma and the whole tag is `"-"`;
`omitEmpty` holds when the part after the first comma is `"omitempty"`. -/
def splitFirstComma : List Nat → List Nat × Option (List Nat)
  | [] => ([], none)
  | c :: rest =>
    if c = cComma then ([], some rest)
    else
      let p := splitFirstComma rest
      (c :: p.1, p.2)

def parseTag (tag : List Nat) : List Nat × Bool × Bool :=
  match splitFirstComma tag with
  | (n, none) => (n, n = strBytes "-", false)
  | (n, some r) => (n, false, r = strBytes "omitempty")

/-- Lookup in an association list with Go-map semantics: the most recent
insertion wins, so the *last* matching entry is returned. -/
def lookupLast {α : Type} : List (List Nat × α) → List Nat → Option α
  | [], _ => none
  | (k', v) :: rest, k =>
    match lookupLast rest k with
    | some r => some r
    | none => if k' = k then some v else none

/-- Insert with Go-map semantics: replace the binding if the key is present,
append otherwise. -/
def upsert {α : Type} : List (List Nat × α) → List Nat → α → List (List Nat × α)
  | [], k, v => [(k, v)]
  | (k', v') :: rest, k, v =>
    if k' = k then (k', v) :: rest else (k', v') :: upsert rest k v

/-! Byte-lexicographic order on keys and `sort.Strings` (line 93).
Go compares strings byte by byte; shorter prefixes sort first. -/

def lexLe : List Nat → List Nat → Bool
  | [], _ => true
  | _ :: _, [] => false
  | a :: as, b :: bs => if a < b then true else if b < a then false else lexLe as bs

def insertSorted (k : List Nat) : List (List Nat) → List (List Nat)
  | [] => [k]
  | x :: xs => if lexLe k x then k :: x :: xs else x :: insertSorted k xs

/-- `sort.Strings`: the keys in ascending byte-lexicographic order.  (Any
correct sort produces the same list, since the order is total and
antisymmetric; insertion sort is used here.) -/
def sortStrings : List (List Nat) → List (List Nat)
  | [] => []
  | k :: ks => insertSorted k (sortStrings ks)

/-- The emission loop of `marshalMap` (lines 98-107), operating on entries
whose values have already been marshalled (marshalling a value is pure, so
pre-computing every value's encoding is unobservable; the Go code marshals
`dictionary[key]` inside the loop).  On a value error the source writes `'e'`
to the buffer but returns `nil, err` (lines 100-102); a value whose encoding
is empty is skipped (line 103). -/
def mapAssemble (pairs : List (List Nat × GoValue × GoResult)) :
    List (List Nat) → List Nat → GoResult
  | [], acc => ⟨acc ++ [cE], none⟩
  | k :: ks, acc =>
    match lookupLast pairs k with
    | none => ⟨[], some "unreachable: sorted key missing from dictionary"⟩
    | some (_, r) =>
      match r.err with
      | some e => ⟨[], some e⟩
      | none =>
        if r.bytes.length > 0 then mapAssemble pairs ks (acc ++ marshalString k ++ r.bytes)
        else mapAssemble pairs ks acc

/-- `marshalMap` (lines 82-111) on pre-marshalled entries.  The key-kind
check (line 83) always passes here because keys are strings by
construction of the model. -/
def marshalMapGo (pairs : List (List Nat × GoValue × GoResult)) : GoResult :=
  mapAssemble pairs (sortStrings (pairs.map Prod.fst)) [cD]

/-- The field-collection loop of `marshalStruct` (lines 117-138): skip
unexported fields; with a tag, skip when `omit`, or when `omitEmpty` and the
value is zero, and use the tag's name part as the key; without a tag use the
field identifier.  `m[name] = ...` has Go-map overwrite semantics
(`upsert`). -/
def structAssocAux : List (FieldInfo × GoValue × GoResult) →
    List (List Nat × GoValue × GoResult) → List (List Nat × GoValue × GoResult)
  | [], acc => acc
  | ((name, tag, exported), v, r) :: rest, acc =>
    if exported then
      match tag with
      | some t =>
        let p := parseTag t
        if p.2.1 || (p.2.2 && IsZero v) then structAssocAux rest acc
        else structAssocAux rest (upsert acc p.1 (v, r))
      | none => structAssocAux rest (upsert acc name (v, r))
    else structAssocAux rest acc

def structAssoc (fields : List (FieldInfo × GoValue × GoResult)) :
    List (List Nat × GoValue × GoResult) :=
  structAssocAux fields []

/-- `marshalStruct` (lines 114-148): build the name-keyed map of field
values, then encode it as a dictionary.  On error the source returns
`nil, err` (lines 141-143), which is what `marshalMapGo` already yields. -/
def marshalStructGo (fields : List (FieldInfo × GoValue × GoResult)) : GoResult :=
  marshalMapGo (structAssoc fields)

/-- The element loop of `marshalList` (lines 67-78): write `'l'`, then each
element's bytes; on an element error, write the partial bytes and `'e'` and
return them *with* the error; otherwise terminate with `'e'`. -/
def listAssemble : List GoResult → List Nat → GoResult
  | [], acc => ⟨acc ++ [cE], none⟩
  | r :: rs, acc =>
    match r.err with
    | some e => ⟨acc ++ r.bytes ++ [cE], some e⟩
    | none => listAssemble rs (acc ++ r.bytes)

def marshalListGo (rs : List GoResult) : GoResult := listAssemble rs [cL]

/-! `Marshal` (lines 26-51).  Dispatch by shape: integers via `marshalInt`,
strings via `marshalString`, a `[]uint8` slice via the byte-string special
case of `marshalList` (lines 63-65, the `VBytes` constructor), other
slices/arrays via `marshalList`, maps via `marshalMap`, structs via
`marshalStruct`; `complex128` has no case and falls through to the
`"unsupported type"` error (line 50), returning a nil slice.  The
`Marshaler` hook and the pointer indirection case are not exercised by the
claims and are not modelled.  The helper functions marshal the members of a
list / the values of a map / the field values of a struct; assembly is done
by `marshalListGo` / `marshalMapGo` / `marshalStructGo`. -/
mutual
def Marshal : GoValue → GoResult
  | .VInt i => ⟨marshalInt i, none⟩
  | .VString s => ⟨marshalString s, none⟩
  | .VBytes b => ⟨marshalString b, none⟩
  | .VList xs => marshalListGo (marshalElems xs)
  | .VMap entries => marshalMapGo (marshalEntries entries)
  | .VStruct fields => marshalStructGo (marshalFields fields)
  | .VComplex => ⟨[], some "unsupported type complex128"⟩

def marshalElems : List GoValue → List GoResult
  | [] => []
  | v :: vs => Marshal v :: marshalElems vs

def marshalEntries : List (List Nat × GoValue) → List (List Nat × GoValue × GoResult)
  | [] => []
  | (k, v) :: rest => (k, v, Marshal v) :: marshalEntries rest

def marshalFields : List (FieldInfo × GoValue) → List (FieldInfo × GoValue × GoResult)
  | [] => []
  | (fi, v) :: rest => (fi, v, Marshal v) :: marshalFields rest
end

/-! ### Decoding (bencode.go lines 155-306, reflect.go lines 12-19) -/

/-- Outcome of a decode operation.  `.ok` carries the decoded result
together with the returned byte count; `.err` carries the returned count
and the error message (Go returns `(int, error)`); `.panic` is an
unrecoverable runtime fault (index or slice out of range); `.fuelOut`
marks exhaustion of the model's fuel parameter and never occurs for
sufficient fuel. -/
inductive DRes (α : Type) : Type where
  | ok : α → DRes α
  | err : Nat → String → DRes α
  | panic : DRes α
  | fuelOut : DRes α
deriving Repr, DecidableEq

def DRes.isErr {α : Type} : DRes α → Bool
  | .err _ _ => true
  | _ => false

def DRes.isOk {α : Type} : DRes α → Bool
  | .ok _ => true
  | _ => false

/-- The generic intermediate form a decode with an untyped destination
materializes: `new(int)`, `new(string)`, `new([]interface{})` or
`&map[string]interface{}{}` boxes filled in by `Unmarshal`
(lines 210-220 and 263-273).  A decoded dictionary is its entry list in
decode order (Go stores the entries in a map; entries here are kept
keyed-unique via `upsert`, mirroring `SetMapIndex`). -/
inductive DecValue : Type where
  | DInt (i : Int)
  | DString (s : List Nat)
  | DList (xs : List DecValue)
  | DDict (entries : List (List Nat × DecValue))
deriving Repr

open DecValue

/-- `unmarshalInt` (lines 179-188): starting at index 1, accumulate bytes
until an `'e'` is found (running off the buffer is an out-of-range panic),
then `strconv.ParseInt`; the returned count is the index of the `'e'`,
with or without an error. -/
def unmarshalInt (data : List Nat) : DRes (Int × Nat) :=
  match scanUntil cE (data.drop 1) with
  | none => .panic
  | some (s, j) =>
    match parseGoInt s with
    | none => .err (1 + j) "invalid syntax"
    | some v => .ok (v, 1 + j)

/-- `unmarshalString` (lines 190-203): accumulate bytes until `':'`
(out-of-range panic if absent), `strconv.Atoi` the digit span (on failure
return `0` and the error), then take the `size` following bytes with Go
slice semantics: `data[i : i+size]` panics when `size` is negative or when
fewer than `size` bytes remain.  On success the returned count is
`i + size`, the full extent of the encoding. -/
def unmarshalString (data : List Nat) : DRes (List Nat × Nat) :=
  match scanUntil cColon data with
  | none => .panic
  | some (nstr, j) =>
    let i := j + 1
    match parseGoInt nstr with
    | none => .err 0 "invalid syntax"
    | some size =>
      if size < 0 then .panic
      else if data.length < i + size.toNat then .panic
      else .ok ((data.drop i).take size.toNat, i + size.toNat)

/-- `fieldWithNameOrTag` (reflect.go lines 12-19): scan the fields in
declaration order; by Go operator precedence the condition is
`(tag present ∧ tag = name) ∨ field identifier = name` — note that the
*whole raw tag* is compared, and that the identifier alternative applies
even when a tag is present.  Returns the index of the first match. -/
def fieldWithNameOrTagAux : List FieldInfo → List Nat → Nat → Option Nat
  | [], _, _ => none
  | (fname, tag, _) :: rest, name, i =>
    if (match tag with | some n => name = n | none => false) || fname = name then some i
    else fieldWithNameOrTagAux rest name (i + 1)

def fieldWithNameOrTag (fields : List FieldInfo) (name : List Nat) : Option Nat :=
  fieldWithNameOrTagAux fields name 0

/-- After decoding a list or dictionary element, the loops skip one extra
byte unless the destination box was `*string`
(`if _, ok := value.(*string); !ok { i++ }`, lines 229-231 and 301-303).
The box is chosen by peeking the element's first byte, so the skip happens
exactly when that byte is `'i'`, `'l'` or `'d'`. -/
def tagTrail (c : Nat) : Nat := if c = cI || c = cL || c = cD then 1 else 0

/-! `Unmarshal` (lines 156-177) with a valid pointer destination, and the
container-decode loops.  `Unmarshal` peeks `data[0]` without a bounds
check (line 164): an empty buffer is an index-out-of-range panic, not an
error return.  The list loop (lines 205-234) has no bounds check on
`data[i]` and panics on a truncated buffer; the dictionary loop
(lines 236-306) guards its head test with `i < len(data)` and exits
*successfully* when the buffer ends, but peeks `data[i]` unguarded for the
value of a decoded key (line 264).  The struct-destination loop records
`(field index, decoded value)` assignments as resolved by
`fieldWithNameOrTag`; the `Unmarshaler` hook branch (lines 248-260) is
not modelled (no field of the model carries a hook), and the
reflection-based conversion that stores a value into its field
(lines 284-296) is abstracted to recording the pair — the claims below
never depend on a conversion that could itself fault. -/
mutual
def Unmarshal : Nat → List Nat → DRes (DecValue × Nat)
  | 0, _ => .fuelOut
  | fuel + 1, data =>
    match data with
    | [] => .panic
    | c :: _ =>
      if c = cI then
        match unmarshalInt data with
        | .ok (v, n) => .ok (.DInt v, n)
        | .err n m => .err n m
        | .panic => .panic
        | .fuelOut => .fuelOut
      else if c = cL then unmarshalListLoop fuel data 1 []
      else if c = cD then unmarshalDictLoop fuel data 1 []
      else
        match unmarshalString data with
        | .ok (s, n) => .ok (.DString s, n)
        | .err n m => .err n m
        | .panic => .panic
        | .fuelOut => .fuelOut

def unmarshalListLoop : Nat → List Nat → Nat → List DecValue → DRes (DecValue × Nat)
  | 0, _, _, _ => .fuelOut
  | fuel + 1, data, i, acc =>
    match data.drop i with
    | [] => .panic
    | c :: _ =>
      if c = cE then .ok (.DList acc, i)
      else
        match Unmarshal fuel (data.drop i) with
        | .ok (dv, n) => unmarshalListLoop fuel data (i + n + tagTrail c) (acc ++ [dv])
        | .err _ m => .err i m
        | .panic => .panic
        | .fuelOut => .fuelOut

def unmarshalDictLoop : Nat → List Nat → Nat →
    List (List Nat × DecValue) → DRes (DecValue × Nat)
  | 0, _, _, _ => .fuelOut
  | fuel + 1, data, i, acc =>
    match data.drop i with
    | [] => .ok (.DDict acc, i)
    | c :: _ =>
      if c = cE then .ok (.DDict acc, i)
      else
        match unmarshalString (data.drop i) with
        | .ok (k, n) =>
          match data.drop (i + n) with
          | [] => .panic
          | c' :: _ =>
            match Unmarshal fuel (data.drop (i + n)) with
            | .ok (dv, n') =>
              unmarshalDictLoop fuel data (i + n + n' + tagTrail c') (upsert acc k dv)
            | .err _ m => .err (i + n) m
            | .panic => .panic
            | .fuelOut => .fuelOut
        | .err _ m => .err i m
        | .panic => .panic
        | .fuelOut => .fuelOut

def unmarshalDictStructLoop : Nat → List Nat → List FieldInfo → Nat →
    List (Nat × DecValue) → DRes (List (Nat × DecValue) × Nat)
  | 0, _, _, _, _ => .fuelOut
  | fuel + 1, data, fields, i, acc =>
    match data.drop i with
    | [] => .ok (acc, i)
    | c :: _ =>
      if c = cE then .ok (acc, i)
      else
        match unmarshalString (data.drop i) with
        | .ok (k, n) =>
          match data.drop (i + n) with
          | [] => .panic
          | c' :: _ =>
            match Unmarshal fuel (data.drop (i + n)) with
            | .ok (dv, n') =>
              unmarshalDictStructLoop fuel data fields (i + n + n' + tagTrail c')
                (match fieldWithNameOrTag fields k with
                 | some idx => acc ++ [(idx, dv)]
                 | none => acc)
            | .err _ m => .err (i + n) m
            | .panic => .panic
            | .fuelOut => .fuelOut
        | .err _ m => .err i m
        | .panic => .panic
        | .fuelOut => .fuelOut
end

/-- `unmarshalList` (lines 205-234) with a generic destination. -/
def unmarshalList (fuel : Nat) (data : List Nat) : DRes (DecValue × Nat) :=
  unmarshalListLoop fuel data 1 []

/-- `unmarshalDictionary` (lines 236-306) with a generic map destination. -/
def unmarshalDictionary (fuel : Nat) (data : List Nat) : DRes (DecValue × Nat) :=
  unmarshalDictLoop fuel data 1 []

/-- `unmarshalDictionary` with a struct destination: returns the recorded
`(field index, decoded value)` assignments. -/
def unmarshalDictionaryStruct (fuel : Nat) (data : List Nat) (fields : List FieldInfo) :
    DRes (List (Nat × DecValue) × Nat) :=
  unmarshalDictStructLoop fuel data fields 1 []

/-! Rebuild a `GoValue` from a decoded generic value: a decoded integer is
an `int`, a decoded byte string a `string`, a decoded list an
`[]interface{}` slice, a decoded dictionary a `map[string]interface{}`.
This is the shape `v2` takes when `Unmarshal` targets an untyped
destination, before any re-encoding. -/
mutual
def decToGo : DecValue → GoValue
  | .DInt i => .VInt i
  | .DString s => .VString s
  | .DList xs => .VList (decListToGo xs)
  | .DDict entries => .VMap (decPairsToGo entries)

def decListToGo : List DecValue → List GoValue
  | [] => []
  | dv :: rest => decToGo dv :: decListToGo rest

def decPairsToGo : List (List Nat × DecValue) → List (List Nat × GoValue)
  | [] => []
  | (k, dv) :: rest => (k, decToGo dv) :: decPairsToGo rest
end

/-- The field-resolution rule exactly as the specification states it: a
field matches when its metadata's explicit wire name (the part of the tag
before the first comma) equals the key, or — only when no metadata is
present — its identifier equals the key.  This definition follows the
spec's words, for comparison with `fieldWithNameOrTag`, which is
translated from the source. -/
def resolveSpecAux : List FieldInfo → List Nat → Nat → Option Nat
  | [], _, _ => none
  | (fname, tag, _) :: rest, name, i =>
    if (match tag with | some t => decide ((parseTag t).1 = name) | none => decide (fname = name)) then some i
    else resolveSpecAux rest name (i + 1)

def resolveSpec (fields : List FieldInfo) (name : List Nat) : Option Nat :=
  resolveSpecAux fields name 0

/-! ### Basic facts about decimal printing, parsing and scanning -/

lemma natToDecAux_digits {fuel n c : Nat} (h : c ∈ natToDecAux fuel n) :
    48 ≤ c ∧ c ≤ 57 := by
  induction fuel generalizing n with
  | zero =>
    simp only [natToDecAux, List.mem_singleton] at h
    subst h
    constructor
    · omega
    · have := Nat.mod_lt n (show 0 < 10 by omega)
      omega
  | succ fuel ih =>
    simp only [natToDecAux] at h
    split at h
    · simp only [List.mem_singleton] at h
      omega
    · rcases List.mem_append.mp h with h' | h'
      · exact ih h'
      · simp only [List.mem_singleton] at h'
        have := Nat.mod_lt n (show 0 < 10 by omega)
        omega

lemma natToDec_digits {n c : Nat} (h : c ∈ natToDec n) : 48 ≤ c ∧ c ≤ 57 :=
  natToDecAux_digits h

lemma natToDecAux_ne_nil (fuel n : Nat) : natToDecAux fuel n ≠ [] := by
  cases fuel with
  | zero => simp [natToDecAux]
  | succ fuel =>
    simp only [natToDecAux]
    split
    · simp
    · simp

lemma natToDec_ne_nil (n : Nat) : natToDec n ≠ [] := natToDecAux_ne_nil n n

lemma digitsAux_append (l₁ l₂ : List Nat) (acc : Nat) :
    digitsAux (l₁ ++ l₂) acc =
      match digitsAux l₁ acc with
      | some a => digitsAux l₂ a
      | none => none := by
  induction l₁ generalizing acc with
  | nil => simp [digitsAux]
  | cons c rest ih =>
    simp only [List.cons_append, digitsAux]
    split
    · exact ih _
    · rfl

lemma digitsAux_natToDecAux (fuel : Nat) :
    ∀ n acc, n ≤ fuel →
      digitsAux (natToDecAux fuel n) acc =
        some (acc * 10 ^ (natToDecAux fuel n).length + n) := by
  induction fuel with
  | zero =>
    intro n acc h
    interval_cases n
    simp [natToDecAux, digitsAux, isDigitB]
  | succ fuel ih =>
    intro n acc h
    simp only [natToDecAux]
    split
    · rename_i hlt
      have hd : isDigitB (48 + n) = true := by simp [isDigitB]; omega
      simp [digitsAux, hd]
    · rename_i hge
      push_neg at hge
      have h10 : n / 10 ≤ fuel := by
        have := Nat.div_lt_self (show 0 < n by omega) (show 1 < 10 by omega)
        omega
      rw [digitsAux_append, ih (n / 10) acc h10]
      have hd : isDigitB (48 + n % 10) = true := by
        have := Nat.mod_lt n (show 0 < 10 by omega)
        simp [isDigitB]; omega
      simp [digitsAux, hd]
      rw [pow_succ, ← mul_assoc]
      generalize acc * 10 ^ (natToDecAux fuel (n / 10)).length = Q
      omega

lemma digitsOf_natToDec (n : Nat) : digitsOf (natToDec n) = some n := by
  have hne := natToDec_ne_nil n
  have hval := digitsAux_natToDecAux n n 0 le_rfl
  unfold natToDec at hne hval ⊢
  cases h : natToDecAux n n with
  | nil => exact absurd h hne
  | cons c rest =>
    rw [h] at hval
    simp only [digitsOf]
    rw [hval]
    simp

lemma parseGoInt_natToDec (n : Nat) : parseGoInt (natToDec n) = some (n : Int) := by
  have hne := natToDec_ne_nil n
  cases h : natToDec n with
  | nil => exact absurd h hne
  | cons c rest =>
    have hc : 48 ≤ c ∧ c ≤ 57 := natToDec_digits (by rw [h]; exact List.mem_cons_self c rest)
    simp only [parseGoInt]
    rw [if_neg (by unfold cMinus; omega), if_neg (by unfold cPlus; omega)]
    rw [← h, digitsOf_natToDec]
    simp

lemma parseGoInt_intToDec (i : Int) : parseGoInt (intToDec i) = some i := by
  unfold intToDec
  split
  · rename_i hneg
    simp only [parseGoInt, if_pos]
    rw [digitsOf_natToDec]
    show some (-((i.natAbs : Nat) : Int)) = some i
    congr 1
    omega
  · rename_i hpos
    push_neg at hpos
    rw [parseGoInt_natToDec]
    congr 1
    omega

lemma scanUntil_append {stop : Nat} (pre : List Nat) (rest : List Nat)
    (h : stop ∉ pre) :
    scanUntil stop (pre ++ stop :: rest) = some (pre, pre.length) := by
  induction pre with
  | nil => simp [scanUntil]
  | cons c cs ih =>
    simp only [List.mem_cons, not_or] at h
    simp only [List.cons_append, scanUntil]
    rw [if_neg (by omega)]
    simp only [List.append_eq]
    rw [ih h.2]
    simp

lemma cE_not_mem_intToDec (i : Int) : cE ∉ intToDec i := by
  intro h
  unfold intToDec at h
  split at h
  · rcases List.mem_cons.mp h with h' | h'
    · unfold cE cMinus at h'; omega
    · have := natToDec_digits h'
      unfold cE at this; omega
  · have := natToDec_digits h
    unfold cE at this; omega

lemma unmarshalInt_correct (i : Int) (rest : List Nat) :
    unmarshalInt (marshalInt i ++ rest) = .ok (i, 1 + (intToDec i).length) := by
  unfold unmarshalInt marshalInt
  have hdrop : ((cI :: intToDec i ++ [cE]) ++ rest).drop 1 = intToDec i ++ cE :: rest := by
    simp
  rw [hdrop, scanUntil_append _ _ (cE_not_mem_intToDec i)]
  simp [parseGoInt_intToDec]

lemma cColon_not_mem_natToDec (n : Nat) : cColon ∉ natToDec n := by
  intro h
  have := natToDec_digits h
  unfold cColon at this; omega

lemma marshalString_length (s : List Nat) :
    (marshalString s).length = (natToDec s.length).length + 1 + s.length := by
  simp [marshalString]
  omega

lemma unmarshalString_correct (s : List Nat) (rest : List Nat) :
    unmarshalString (marshalString s ++ rest) = .ok (s, (marshalString s).length) := by
  have hsp : marshalString s ++ rest =
      natToDec s.length ++ cColon :: (s ++ rest) := by simp [marshalString]
  rw [hsp]
  unfold unmarshalString
  rw [scanUntil_append _ _ (cColon_not_mem_natToDec s.length)]
  simp only [parseGoInt_natToDec]
  rw [if_neg (by omega)]
  have hlen : (natToDec s.length ++ cColon :: (s ++ rest)).length =
      (natToDec s.length).length + 1 + s.length + rest.length := by simp; omega
  simp only [Int.toNat_natCast]
  rw [if_neg (by omega)]
  have hsplit : natToDec s.length ++ cColon :: (s ++ rest) =
      (natToDec s.length ++ [cColon]) ++ (s ++ rest) := by simp
  have hdl : (natToDec s.length ++ [cColon]).length = (natToDec s.length).length + 1 := by simp
  have hdrop : (natToDec s.length ++ cColon :: (s ++ rest)).drop ((natToDec s.length).length + 1) =
      s ++ rest := by
    rw [hsplit, ← hdl, List.drop_left]
  rw [hdrop, List.take_left, marshalString_length]

/-! ### Claim C3: byte-string decode errors -/

/-- C3, counterexample: decoding the byte string `"4:ab"` — whose declared
length 4 exceeds the 2 remaining bytes — does not return an error value at
all: the unguarded slice `data[i : i+size]` is an out-of-range fault
(panic), so the claimed `TruncatedBuffer` error return is wrong. -/
theorem c3_counterexample :
    unmarshalString (strBytes "4:ab") = .panic ∧
    (unmarshalString (strBytes "4:ab")).isErr = false := ⟨rfl, rfl⟩

/-- C3 (amended): when the digit span before `':'` is invalid,
`unmarshalString` fails with the returned `strconv` parse error (the
`MalformedLength` case of the claim, with returned count 0); but when the
declared length exceeds the remaining bytes — or is negative — the decode
panics on the unguarded slice `data[i : i+size]` instead of returning a
`TruncatedBuffer` error value. -/
theorem c3_amended :
    (∀ pre rest, cColon ∉ pre → parseGoInt pre = none →
      unmarshalString (pre ++ cColon :: rest) = .err 0 "invalid syntax") ∧
    (∀ pre rest size, cColon ∉ pre → parseGoInt pre = some size →
      rest.length < size.toNat →
      unmarshalString (pre ++ cColon :: rest) = .panic) ∧
    (∀ pre rest size, cColon ∉ pre → parseGoInt pre = some size → size < 0 →
      unmarshalString (pre ++ cColon :: rest) = .panic) := by
  refine ⟨?_, ?_, ?_⟩
  · intro pre rest h hp
    unfold unmarshalString
    rw [scanUntil_append _ _ h]
    simp only [hp]
  · intro pre rest size h hp hlt
    unfold unmarshalString
    rw [scanUntil_append _ _ h]
    simp only [hp]
    by_cases hneg : size < 0
    · rw [if_pos hneg]
    · rw [if_neg hneg, if_pos (by simp; omega)]
  · intro pre rest size h hp hneg
    unfold unmarshalString
    rw [scanUntil_append _ _ h]
    simp only [hp]
    rw [if_pos hneg]

/-- C3 witness: the amended theorem at concrete inputs — `"x:"` has an
invalid digit span and returns the parse error; `"4:ab"` is truncated and
panics; `"-3:x"` declares a negative length and panics. -/
theorem c3_amended_witness :
    unmarshalString (strBytes "x:") = .err 0 "invalid syntax" ∧
    unmarshalString (strBytes "4:ab") = .panic ∧
    unmarshalString (strBytes "-3:x") = .panic :=
  ⟨c3_amended.1 (strBytes "x") [] (by decide) (by decide),
   c3_amended.2.1 (strBytes "4") (strBytes "ab") 4 (by decide) (by decide) (by decide),
   c3_amended.2.2 (strBytes "-3") (strBytes "x") (-3) (by decide) (by decide) (by decide)⟩

/-! ### Claim C4: unterminated dictionary (counterexample part) -/

/-- C4, counterexample: decoding the buffer `"d"`, which begins a
dictionary and ends before any closing `'e'`, *succeeds* — it returns the
empty dictionary with consumed count 1 and no error, because the loop
guard `i < len(data)` exits the loop normally at end of buffer.  No
`UnterminatedContainer` error exists in the code. -/
theorem c4_counterexample :
    unmarshalDictionary 1 (strBytes "d") = .ok (.DDict [], 1) ∧
    (unmarshalDictionary 1 (strBytes "d")).isErr = false := ⟨rfl, rfl⟩

/-! ### Claim C5: unsupported shapes (counterexample part) -/

/-- C5, counterexample: marshalling a list containing an unsupported value
returns the `unsupported type` error *together with* partial output bytes
`"le"` — `marshalList` writes the element bytes and a closing `'e'` into
its buffer and returns `buf.Bytes()` alongside the error (bencode.go
lines 72-75), so "no partial output alongside the error" is wrong. -/
theorem c5_counterexample :
    Marshal (VList [VComplex]) = ⟨strBytes "le", some "unsupported type complex128"⟩ ∧
    (Marshal (VList [VComplex])).bytes ≠ [] := ⟨rfl, by decide⟩

/-! ### Claim C6: field resolution (counterexample part) -/

/-- C6, counterexample: for a record with the single field `Age` carrying
explicit metadata naming it `age` on the wire, the source's resolver
matches the key `"Age"` (the identifier alternative applies even though
metadata is present), while the claimed rule — identifier matches only
when no metadata is present — yields no match. -/
theorem c6_counterexample :
    fieldWithNameOrTag [(strBytes "Age", some (strBytes "age"), true)] (strBytes "Age") =
      some 0 ∧
    resolveSpec [(strBytes "Age", some (strBytes "age"), true)] (strBytes "Age") =
      none := by decide

/-! ### Claim C7: byte-slice special case -/

/-- C7: a slice of 8-bit values is encoded as a single byte string —
length prefix, `':'`, raw bytes — and in particular the 4-byte sequence
`[0x53, 0x6f, 0x6d, 0x65]` encodes to exactly `"4:Some"`, which differs
from the list-of-integers encoding `"li83ei111ei109ei101ee"` that the
same numbers produce as a non-byte list. -/
theorem c7_byte_slice_special_case :
    (∀ b : List Nat, Marshal (VBytes b) = ⟨marshalString b, none⟩) ∧
    Marshal (VBytes [0x53, 0x6f, 0x6d, 0x65]) = ⟨strBytes "4:Some", none⟩ ∧
    Marshal (VList [VInt 0x53, VInt 0x6f, VInt 0x6d, VInt 0x65]) =
      ⟨strBytes "li83ei111ei109ei101ee", none⟩ ∧
    strBytes "4:Some" ≠ strBytes "li83ei111ei109ei101ee" :=
  ⟨fun _ => rfl, by decide, by decide, by decide⟩

/-! ### Claim C8: consumed byte counts (counterexample part) -/

/-- C8, counterexample: `Unmarshal` on the integer encoding `"i10e"`
(4 bytes) reports a consumed count of 3, the index of the terminating
`'e'`, not the full 4-byte length of the encoding — the claimed
"consumed count covering the entire encoding including the trailing `'e'`"
is wrong. -/
theorem c8_counterexample :
    Unmarshal 1 (strBytes "i10e") = .ok (.DInt 10, 3) ∧
    (strBytes "i10e").length = 4 ∧ (3 : Nat) ≠ 4 := ⟨rfl, by decide, by decide⟩

/-! ### Claim C10: empty input buffer -/

/-- C10: with a valid pointer destination, `Unmarshal` reads `data[0]`
without a bounds check (bencode.go line 164); on an empty buffer the
operation is an index-out-of-range fault (panic), not an error return,
for every fuel allowance. -/
theorem c10_empty_buffer_panic (fuel : Nat) :
    Unmarshal (fuel + 1) [] = .panic ∧ (Unmarshal (fuel + 1) []).isErr = false :=
  ⟨rfl, rfl⟩

/-! ### The key order: lexicographic comparison facts -/

/-- The byte-lexicographic order as a proposition. -/
def lexLeP (a b : List Nat) : Prop := lexLe a b = true

instance : DecidableRel lexLeP := fun a b => inferInstanceAs (Decidable (lexLe a b = true))

lemma lexLe_refl (a : List Nat) : lexLe a a = true := by
  induction a with
  | nil => rfl
  | cons c cs ih => simp [lexLe, ih]

lemma lexLe_total (a b : List Nat) : lexLeP a b ∨ lexLeP b a := by
  unfold lexLeP
  induction a generalizing b with
  | nil => left; rfl
  | cons c cs ih =>
    cases b with
    | nil => right; rfl
    | cons d ds =>
      rcases Nat.lt_trichotomy c d with h | h | h
      · left; simp [lexLe, h]
      · subst h
        rcases ih ds with h' | h'
        · left; simp [lexLe, h']
        · right; simp [lexLe, h']
      · right; simp [lexLe, h]

lemma lexLe_trans {a b c : List Nat} (h₁ : lexLeP a b) (h₂ : lexLeP b c) : lexLeP a c := by
  unfold lexLeP at h₁ h₂ ⊢
  induction a generalizing b c with
  | nil => rfl
  | cons x xs ih =>
    cases b with
    | nil => simp [lexLe] at h₁
    | cons y ys =>
      cases c with
      | nil => simp [lexLe] at h₂
      | cons z zs =>
        simp only [lexLe] at h₁ h₂ ⊢
        by_cases hxy : x < y
        · by_cases hyz : y < z
          · rw [if_pos (by omega)]
          · rw [if_neg hyz] at h₂
            by_cases hzy : z < y
            · rw [if_pos hzy] at h₂; simp at h₂
            · rw [if_pos (by omega)]
        · rw [if_neg hxy] at h₁
          by_cases hyx : y < x
          · rw [if_pos hyx] at h₁; simp at h₁
          · rw [if_neg hyx] at h₁
            have hxy' : x = y := by omega
            subst hxy'
            by_cases hxz : x < z
            · rw [if_pos hxz]
            · rw [if_neg hxz] at h₂ ⊢
              by_cases hzx : z < x
              · rw [if_pos hzx] at h₂; simp at h₂
              · rw [if_neg hzx] at h₂ ⊢
                exact ih h₁ h₂

lemma lexLe_antisymm {a b : List Nat} (h₁ : lexLeP a b) (h₂ : lexLeP b a) : a = b := by
  unfold lexLeP at h₁ h₂
  induction a generalizing b with
  | nil =>
    cases b with
    | nil => rfl
    | cons d ds => simp [lexLe] at h₂
  | cons c cs ih =>
    cases b with
    | nil => simp [lexLe] at h₁
    | cons d ds =>
      simp only [lexLe] at h₁ h₂
      rcases Nat.lt_trichotomy c d with h | h | h
      · rw [if_neg (by omega), if_pos h] at h₂
        simp at h₂
      · subst h
        rw [if_neg (by omega), if_neg (by omega)] at h₁ h₂
        rw [ih h₁ h₂]
      · rw [if_neg (by omega), if_pos h] at h₁
        simp at h₁

instance : IsTotal (List Nat) lexLeP := ⟨lexLe_total⟩
instance : IsTrans (List Nat) lexLeP := ⟨fun _ _ _ => lexLe_trans⟩
instance : IsAntisymm (List Nat) lexLeP := ⟨fun _ _ => lexLe_antisymm⟩

lemma insertSorted_eq (k : List Nat) (l : List (List Nat)) :
    insertSorted k l = List.orderedInsert lexLeP k l := by
  induction l with
  | nil => rfl
  | cons x xs ih =>
    simp only [insertSorted, List.orderedInsert]
    by_cases h : lexLeP k x
    · rw [if_pos h, if_pos (show lexLe k x = true from h)]
    · rw [if_neg h, if_neg (show ¬lexLe k x = true from h), ih]

lemma sortStrings_eq (l : List (List Nat)) :
    sortStrings l = List.insertionSort lexLeP l := by
  induction l with
  | nil => rfl
  | cons k ks ih => simp only [sortStrings, List.insertionSort, insertSorted_eq, ih]

lemma sortStrings_sorted (l : List (List Nat)) : List.Sorted lexLeP (sortStrings l) := by
  rw [sortStrings_eq]; exact List.sorted_insertionSort lexLeP l

lemma sortStrings_perm (l : List (List Nat)) : List.Perm (sortStrings l) l := by
  rw [sortStrings_eq]; exact List.perm_insertionSort lexLeP l

lemma sortStrings_of_perm {l₁ l₂ : List (List Nat)} (h : List.Perm l₁ l₂) :
    sortStrings l₁ = sortStrings l₂ :=
  List.eq_of_perm_of_sorted (((sortStrings_perm l₁).trans h).trans (sortStrings_perm l₂).symm)
    (sortStrings_sorted l₁) (sortStrings_sorted l₂)

lemma sortStrings_of_sorted {l : List (List Nat)} (h : List.Sorted lexLeP l) :
    sortStrings l = l :=
  List.eq_of_perm_of_sorted (sortStrings_perm l) (sortStrings_sorted l) h

lemma mem_sortStrings {k : List Nat} {l : List (List Nat)} : k ∈ sortStrings l ↔ k ∈ l :=
  (sortStrings_perm l).mem_iff

/-! ### Association-list facts -/

lemma marshalEntries_eq_map (l : List (List Nat × GoValue)) :
    marshalEntries l = l.map fun p => (p.1, p.2, Marshal p.2) := by
  induction l with
  | nil => rfl
  | cons p rest ih => cases p; simp [marshalEntries, ih]

lemma marshalElems_eq_map (l : List GoValue) : marshalElems l = l.map Marshal := by
  induction l with
  | nil => rfl
  | cons v rest ih => simp [marshalElems, ih]

lemma marshalFields_eq_map (l : List (FieldInfo × GoValue)) :
    marshalFields l = l.map fun p => (p.1, p.2, Marshal p.2) := by
  induction l with
  | nil => rfl
  | cons p rest ih => cases p; simp [marshalFields, ih]

lemma marshalEntries_map_fst (l : List (List Nat × GoValue)) :
    (marshalEntries l).map Prod.fst = l.map Prod.fst := by
  rw [marshalEntries_eq_map, List.map_map]
  rfl

lemma lookupLast_eq_none {α : Type} (l : List (List Nat × α)) (k : List Nat) :
    lookupLast l k = none ↔ k ∉ l.map Prod.fst := by
  induction l with
  | nil => simp [lookupLast]
  | cons p rest ih =>
    obtain ⟨k', v'⟩ := p
    simp only [lookupLast, List.map_cons, List.mem_cons, not_or]
    cases h : lookupLast rest k with
    | some r =>
      have hk : k ∈ rest.map Prod.fst := by
        by_contra hc
        rw [ih.mpr hc] at h
        cases h
      simp [hk]
    | none =>
      have hk : k ∉ rest.map Prod.fst := ih.mp h
      by_cases he : k' = k
      · subst he
        simp [hk]
      · simp [he, hk]
        exact fun hc => he hc.symm

lemma lookupLast_some_mem {α : Type} {l : List (List Nat × α)} {k : List Nat} {v : α}
    (h : lookupLast l k = some v) : (k, v) ∈ l := by
  induction l with
  | nil => cases h
  | cons p rest ih =>
    obtain ⟨k', v'⟩ := p
    simp only [lookupLast] at h
    cases h' : lookupLast rest k with
    | some r =>
      rw [h'] at h
      injection h with hv
      subst hv
      exact List.mem_cons_of_mem _ (ih h')
    | none =>
      rw [h'] at h
      by_cases he : k' = k
      · rw [if_pos he] at h
        injection h with hv
        subst hv
        subst he
        exact List.mem_cons_self _ _
      · rw [if_neg he] at h
        cases h

lemma lookupLast_mem_nodup {α : Type} {l : List (List Nat × α)} {k : List Nat} {v : α}
    (hnd : (l.map Prod.fst).Nodup) (hm : (k, v) ∈ l) : lookupLast l k = some v := by
  induction l with
  | nil => cases hm
  | cons p rest ih =>
    obtain ⟨k', v'⟩ := p
    simp only [List.map_cons, List.nodup_cons] at hnd
    rcases List.mem_cons.mp hm with he | hm'
    · cases he
      have : lookupLast rest k = none := (lookupLast_eq_none rest k).mpr hnd.1
      simp [lookupLast, this]
    · have hsome := ih hnd.2 hm'
      simp [lookupLast, hsome]

lemma lookupLast_perm {α : Type} {l₁ l₂ : List (List Nat × α)}
    (hnd : (l₁.map Prod.fst).Nodup) (hp : List.Perm l₁ l₂) (k : List Nat) :
    lookupLast l₁ k = lookupLast l₂ k := by
  have hnd₂ : (l₂.map Prod.fst).Nodup := ((hp.map Prod.fst).nodup_iff).mp hnd
  cases h : lookupLast l₁ k with
  | some v =>
    exact (lookupLast_mem_nodup hnd₂ (hp.mem_iff.mp (lookupLast_some_mem h))).symm
  | none =>
    have hk : k ∉ l₁.map Prod.fst := (lookupLast_eq_none l₁ k).mp h
    have hk₂ : k ∉ l₂.map Prod.fst := fun hc => hk ((hp.map Prod.fst).mem_iff.mpr hc)
    exact ((lookupLast_eq_none l₂ k).mpr hk₂).symm

lemma mapAssemble_congr {p₁ p₂ : List (List Nat × GoValue × GoResult)}
    (h : ∀ k, lookupLast p₁ k = lookupLast p₂ k) (ks : List (List Nat)) (acc : List Nat) :
    mapAssemble p₁ ks acc = mapAssemble p₂ ks acc := by
  induction ks generalizing acc with
  | nil => rfl
  | cons k ks ih =>
    simp only [mapAssemble, h k]
    cases lookupLast p₂ k with
    | none => rfl
    | some vr =>
      obtain ⟨v, r⟩ := vr
      cases herr : r.err with
      | some e => simp [herr]
      | none =>
        simp only [herr]
        split <;> exact ih _

/-- The byte rendering of the `marshalMap` emission loop for one key: the
encoded key followed by the pre-encoded value bytes, or nothing when the
value's encoding is empty (the skip branch of bencode.go line 103). -/
def dictEntryRender (pairs : List (List Nat × GoValue × GoResult)) (k : List Nat) : List Nat :=
  match lookupLast pairs k with
  | some (_, r) => if r.bytes.length > 0 then marshalString k ++ r.bytes else []
  | none => []

/-- The full body (everything between `'d'` and `'e'`) the `marshalMap`
loop emits for the given key order. -/
def dictBody (pairs : List (List Nat × GoValue × GoResult)) (ks : List (List Nat)) : List Nat :=
  (ks.map (dictEntryRender pairs)).flatten

lemma mapAssemble_render (pairs : List (List Nat × GoValue × GoResult)) (ks : List (List Nat))
    (h : ∀ k ∈ ks, ∃ v r, lookupLast pairs k = some (v, r) ∧ r.err = none) (acc : List Nat) :
    mapAssemble pairs ks acc = ⟨acc ++ dictBody pairs ks ++ [cE], none⟩ := by
  induction ks generalizing acc with
  | nil => simp [mapAssemble, dictBody]
  | cons k ks ih =>
    obtain ⟨v, r, hl, he⟩ := h k (List.mem_cons_self _ _)
    have hrest : ∀ k' ∈ ks, ∃ v r, lookupLast pairs k' = some (v, r) ∧ r.err = none :=
      fun k' hk' => h k' (List.mem_cons_of_mem _ hk')
    simp only [mapAssemble, hl, he, dictBody, List.map_cons, List.flatten_cons, dictEntryRender]
    split
    · rw [ih hrest]
      simp [dictBody]
    · rename_i hempty
      rw [ih hrest]
      simp [dictBody]

/-! ### Claim C2: dictionary key order -/

/-- C2: for every string-keyed mapping, the encoder emits the key/value
pairs in ascending byte-lexicographic order of the keys: the encoding is
invariant under any permutation of the mapping's iteration order, and the
emitted body follows `sortStrings` of the key set — a list that is sorted
under the byte-lexicographic order and is a permutation of the keys.  The
order is a function of the entries alone, recomputed inside each
`marshalMap` call. -/
theorem c2_dict_keys_sorted (entries : List (List Nat × GoValue))
    (hnd : (entries.map Prod.fst).Nodup) :
    (∀ e₂, List.Perm e₂ entries → Marshal (VMap e₂) = Marshal (VMap entries)) ∧
    List.Sorted lexLeP (sortStrings (entries.map Prod.fst)) ∧
    List.Perm (sortStrings (entries.map Prod.fst)) (entries.map Prod.fst) ∧
    ((∀ p ∈ entries, (Marshal p.2).err = none) →
      Marshal (VMap entries) =
        ⟨cD :: dictBody (marshalEntries entries) (sortStrings (entries.map Prod.fst)) ++ [cE],
         none⟩) := by
  have hndm : ((marshalEntries entries).map Prod.fst).Nodup := by
    rw [marshalEntries_map_fst]; exact hnd
  refine ⟨?_, sortStrings_sorted _, sortStrings_perm _, ?_⟩
  · intro e₂ hp
    show marshalMapGo (marshalEntries e₂) = marshalMapGo (marshalEntries entries)
    unfold marshalMapGo
    rw [marshalEntries_map_fst, marshalEntries_map_fst,
      sortStrings_of_perm (hp.map Prod.fst)]
    apply mapAssemble_congr
    intro k
    apply lookupLast_perm
    · rw [marshalEntries_map_fst]
      exact ((hp.map Prod.fst).nodup_iff).mpr hnd
    · rw [marshalEntries_eq_map, marshalEntries_eq_map]
      exact hp.map _
  · intro hok
    show marshalMapGo (marshalEntries entries) = _
    unfold marshalMapGo
    rw [marshalEntries_map_fst]
    have hex : ∀ k ∈ sortStrings (entries.map Prod.fst), ∃ v r,
        lookupLast (marshalEntries entries) k = some (v, r) ∧ r.err = none := by
      intro k hk
      have hkm : k ∈ entries.map Prod.fst := mem_sortStrings.mp hk
      obtain ⟨p, hp, hpk⟩ := List.mem_map.mp hkm
      refine ⟨p.2, Marshal p.2, ?_, hok p hp⟩
      apply lookupLast_mem_nodup hndm
      rw [marshalEntries_eq_map]
      exact List.mem_map.mpr ⟨p, hp, by rw [← hpk]⟩
    rw [mapAssemble_render _ _ hex]
    rfl

/-- C2 witness: the spec's example keys `{"b","a","hello"}` — any
iteration order yields the same encoding, and the computed key order
`a, b, hello` is sorted. -/
theorem c2_dict_keys_sorted_witness :
    Marshal (VMap [(strBytes "b", VInt 2), (strBytes "a", VInt 1), (strBytes "hello", VInt 3)]) =
      Marshal (VMap [(strBytes "a", VInt 1), (strBytes "hello", VInt 3), (strBytes "b", VInt 2)]) ∧
    List.Sorted lexLeP
      (sortStrings [strBytes "a", strBytes "hello", strBytes "b"]) :=
  ⟨(c2_dict_keys_sorted
      [(strBytes "a", VInt 1), (strBytes "hello", VInt 3), (strBytes "b", VInt 2)]
      (by decide)).1
      [(strBytes "b", VInt 2), (strBytes "a", VInt 1), (strBytes "hello", VInt 3)]
      ((List.Perm.swap _ _ _).trans (List.Perm.cons _ (List.Perm.swap _ _ _))),
   ((c2_dict_keys_sorted
      [(strBytes "a", VInt 1), (strBytes "hello", VInt 3), (strBytes "b", VInt 2)]
      (by decide)).2.1)⟩

/-! ### Struct field collection facts -/

/-- The wire name a field contributes to the struct's dictionary, if any:
`none` for unexported fields, for fields tagged `omit`, and for
`omitempty` fields holding their zero value; otherwise the tag's name part
or the field identifier.  This mirrors the branch structure of
`structAssocAux` (marshalStruct's collection loop). -/
def fieldEmitNameR (f : FieldInfo × GoValue × GoResult) : Option (List Nat) :=
  match f with
  | ((name, tag, exported), v, _) =>
    if exported then
      match tag with
      | some t =>
        let p := parseTag t
        if p.2.1 || (p.2.2 && IsZero v) then none else some p.1
      | none => some name
    else none

lemma structAssocAux_cons (f : FieldInfo × GoValue × GoResult)
    (rest : List (FieldInfo × GoValue × GoResult)) (acc : List (List Nat × GoValue × GoResult)) :
    structAssocAux (f :: rest) acc =
      structAssocAux rest
        (match fieldEmitNameR f with
         | some k => upsert acc k (f.2.1, f.2.2)
         | none => acc) := by
  obtain ⟨⟨name, tag, exported⟩, v, r⟩ := f
  simp only [structAssocAux, fieldEmitNameR]
  cases exported with
  | false => simp
  | true =>
    cases tag with
    | none => simp
    | some t =>
      simp only [if_true]
      by_cases hc : ((parseTag t).2.1 || ((parseTag t).2.2 && IsZero v)) = true
      · rw [if_pos hc, if_pos hc]
      · rw [if_neg hc, if_neg hc]

lemma mem_upsert {α : Type} {x : List Nat × α} {l : List (List Nat × α)} {k : List Nat} {v : α}
    (h : x ∈ upsert l k v) : x = (k, v) ∨ x ∈ l := by
  induction l with
  | nil => simp [upsert] at h; left; exact h
  | cons p rest ih =>
    obtain ⟨k', v'⟩ := p
    simp only [upsert] at h
    split at h
    · rename_i he
      rcases List.mem_cons.mp h with h' | h'
      · subst he; left; rw [h']
      · right; exact List.mem_cons_of_mem _ h'
    · rcases List.mem_cons.mp h with h' | h'
      · right; rw [h']; exact List.mem_cons_self _ _
      · rcases ih h' with h'' | h''
        · left; exact h''
        · right; exact List.mem_cons_of_mem _ h''

lemma mem_upsert_self {α : Type} (l : List (List Nat × α)) (k : List Nat) (v : α) :
    (k, v) ∈ upsert l k v := by
  induction l with
  | nil => simp [upsert]
  | cons p rest ih =>
    obtain ⟨k', v'⟩ := p
    simp only [upsert]
    split
    · rename_i he
      subst he
      exact List.mem_cons_self _ _
    · exact List.mem_cons_of_mem _ ih

lemma upsert_map_fst_mem {α : Type} (l : List (List Nat × α)) (k : List Nat) (v : α)
    (x : List Nat) : x ∈ (upsert l k v).map Prod.fst ↔ x = k ∨ x ∈ l.map Prod.fst := by
  induction l with
  | nil => simp [upsert]
  | cons p rest ih =>
    obtain ⟨k', v'⟩ := p
    simp only [upsert]
    split
    · rename_i he
      subst he
      simp only [List.map_cons, List.mem_cons]
      constructor
      · rintro (h | h)
        · left; exact h
        · right; right; exact h
      · rintro (h | h | h)
        · left; exact h
        · left; exact h
        · right; exact h
    · simp only [List.map_cons, List.mem_cons, ih]
      tauto

lemma upsert_nodup {α : Type} {l : List (List Nat × α)} (k : List Nat) (v : α)
    (hnd : (l.map Prod.fst).Nodup) : ((upsert l k v).map Prod.fst).Nodup := by
  induction l with
  | nil => simp [upsert]
  | cons p rest ih =>
    obtain ⟨k', v'⟩ := p
    simp only [List.map_cons, List.nodup_cons] at hnd
    simp only [upsert]
    split
    · simp only [List.map_cons, List.nodup_cons]
      exact hnd
    · rename_i he
      simp only [List.map_cons, List.nodup_cons]
      refine ⟨?_, ih hnd.2⟩
      rw [upsert_map_fst_mem]
      rintro (h | h)
      · exact he h
      · exact hnd.1 h

lemma lookupLast_upsert_self {α : Type} {l : List (List Nat × α)} (k : List Nat) (v : α)
    (hnd : (l.map Prod.fst).Nodup) : lookupLast (upsert l k v) k = some v :=
  lookupLast_mem_nodup (upsert_nodup k v hnd) (mem_upsert_self l k v)

lemma lookupLast_upsert_other {α : Type} (l : List (List Nat × α)) {k k' : List Nat} (v : α)
    (h : k' ≠ k) : lookupLast (upsert l k' v) k = lookupLast l k := by
  induction l with
  | nil => simp [upsert, lookupLast, h]
  | cons p rest ih =>
    obtain ⟨a, b⟩ := p
    simp only [upsert]
    split
    · rename_i he
      subst he
      simp only [lookupLast]
      cases hl : lookupLast rest k <;> simp [hl, h]
    · simp only [lookupLast, ih]

lemma structAssocAux_nodup (fs : List (FieldInfo × GoValue × GoResult))
    (acc : List (List Nat × GoValue × GoResult)) (hnd : (acc.map Prod.fst).Nodup) :
    ((structAssocAux fs acc).map Prod.fst).Nodup := by
  induction fs generalizing acc with
  | nil => exact hnd
  | cons f rest ih =>
    rw [structAssocAux_cons]
    cases fieldEmitNameR f with
    | none => exact ih _ hnd
    | some k => exact ih _ (upsert_nodup _ _ hnd)

lemma structAssoc_nodup (fs : List (FieldInfo × GoValue × GoResult)) :
    ((structAssoc fs).map Prod.fst).Nodup :=
  structAssocAux_nodup fs [] (by simp)

lemma structAssocAux_mem_keys (fs : List (FieldInfo × GoValue × GoResult))
    (acc : List (List Nat × GoValue × GoResult)) (k : List Nat) :
    k ∈ (structAssocAux fs acc).map Prod.fst ↔
      (∃ f ∈ fs, fieldEmitNameR f = some k) ∨ k ∈ acc.map Prod.fst := by
  induction fs generalizing acc with
  | nil => simp [structAssocAux]
  | cons f rest ih =>
    rw [structAssocAux_cons]
    cases he : fieldEmitNameR f with
    | none =>
      rw [ih]
      simp only [List.mem_cons]
      constructor
      · rintro (⟨g, hg, hgk⟩ | h)
        · exact Or.inl ⟨g, Or.inr hg, hgk⟩
        · exact Or.inr h
      · rintro (⟨g, hg | hg, hgk⟩ | h)
        · rw [hg] at hgk; rw [he] at hgk; cases hgk
        · exact Or.inl ⟨g, hg, hgk⟩
        · exact Or.inr h
    | some k' =>
      rw [ih]
      simp only [List.mem_cons, upsert_map_fst_mem]
      constructor
      · rintro (⟨g, hg, hgk⟩ | h | h)
        · exact Or.inl ⟨g, Or.inr hg, hgk⟩
        · subst h; exact Or.inl ⟨f, Or.inl rfl, he⟩
        · exact Or.inr h
      · rintro (⟨g, hg | hg, hgk⟩ | h)
        · rw [hg] at hgk
          rw [he] at hgk
          injection hgk with hk
          exact Or.inr (Or.inl hk.symm)
        · exact Or.inl ⟨g, hg, hgk⟩
        · exact Or.inr (Or.inr h)

lemma structAssocAux_lookup_absent (fs : List (FieldInfo × GoValue × GoResult))
    (acc : List (List Nat × GoValue × GoResult)) (w : List Nat)
    (h : ∀ f ∈ fs, fieldEmitNameR f ≠ some w) :
    lookupLast (structAssocAux fs acc) w = lookupLast acc w := by
  induction fs generalizing acc with
  | nil => rfl
  | cons f rest ih =>
    rw [structAssocAux_cons]
    have hrest : ∀ f ∈ rest, fieldEmitNameR f ≠ some w :=
      fun g hg => h g (List.mem_cons_of_mem _ hg)
    cases he : fieldEmitNameR f with
    | none => exact ih _ hrest
    | some k' =>
      rw [ih _ hrest]
      apply lookupLast_upsert_other
      intro hc
      exact h f (List.mem_cons_self _ _) (by rw [he, hc])

lemma structAssocAux_lookup_present (pre post : List (FieldInfo × GoValue × GoResult))
    (f : FieldInfo × GoValue × GoResult) (w : List Nat)
    (hf : fieldEmitNameR f = some w)
    (hpre : ∀ g ∈ pre, fieldEmitNameR g ≠ some w)
    (hpost : ∀ g ∈ post, fieldEmitNameR g ≠ some w)
    (acc : List (List Nat × GoValue × GoResult)) (hnd : (acc.map Prod.fst).Nodup) :
    lookupLast (structAssocAux (pre ++ f :: post) acc) w = some (f.2.1, f.2.2) := by
  induction pre generalizing acc with
  | nil =>
    simp only [List.nil_append]
    rw [structAssocAux_cons, hf]
    rw [structAssocAux_lookup_absent _ _ _ hpost]
    exact lookupLast_upsert_self w _ hnd
  | cons g pre' ih =>
    simp only [List.cons_append]
    rw [structAssocAux_cons]
    have hg : fieldEmitNameR g ≠ some w := hpre g (List.mem_cons_self _ _)
    have hpre' : ∀ g' ∈ pre', fieldEmitNameR g' ≠ some w :=
      fun g' hg' => hpre g' (List.mem_cons_of_mem _ hg')
    cases he : fieldEmitNameR g with
    | none => exact ih hpre' _ hnd
    | some k' => exact ih hpre' _ (upsert_nodup _ _ hnd)

lemma structAssocAux_shape (fs : List (FieldInfo × GoValue × GoResult))
    (acc : List (List Nat × GoValue × GoResult)) {k : List Nat} {vr : GoValue × GoResult}
    (h : (k, vr) ∈ structAssocAux fs acc) :
    (∃ f ∈ fs, vr = (f.2.1, f.2.2)) ∨ (k, vr) ∈ acc := by
  induction fs generalizing acc with
  | nil => exact Or.inr h
  | cons f rest ih =>
    rw [structAssocAux_cons] at h
    cases he : fieldEmitNameR f with
    | none =>
      rw [he] at h
      rcases ih _ h with ⟨g, hg, hgv⟩ | h'
      · exact Or.inl ⟨g, List.mem_cons_of_mem _ hg, hgv⟩
      · exact Or.inr h'
    | some k' =>
      rw [he] at h
      rcases ih _ h with ⟨g, hg, hgv⟩ | h'
      · exact Or.inl ⟨g, List.mem_cons_of_mem _ hg, hgv⟩
      · rcases mem_upsert h' with h'' | h''
        · exact Or.inl ⟨f, List.mem_cons_self _ _, congrArg Prod.snd h''⟩
        · exact Or.inr h''

lemma dictBody_append (pairs : List (List Nat × GoValue × GoResult))
    (ks₁ ks₂ : List (List Nat)) :
    dictBody pairs (ks₁ ++ ks₂) = dictBody pairs ks₁ ++ dictBody pairs ks₂ := by
  simp [dictBody]

/-! ### Claim C9: omit-on-default fields -/

/-- C9: for a record field tagged omit-on-default (tag name part `w`,
`omitempty` modifier), with no other field contributing the wire name `w`:
when the field holds its type's zero value, `w` is absent from the
dictionary the struct encoder builds; when it holds a non-zero value, the
dictionary maps `w` to that value, and (when the whole struct encodes
without error) the encoded output contains the pair
`marshalString w ++ encoding of the value` verbatim. -/
theorem c9_omitempty (pre post : List (FieldInfo × GoValue)) (nm t w : List Nat) (v : GoValue)
    (hw : (parseTag t).1 = w) (hno : (parseTag t).2.1 = false) (hoe : (parseTag t).2.2 = true)
    (hothers : ∀ g ∈ pre ++ post, fieldEmitNameR (g.1, g.2, Marshal g.2) ≠ some w) :
    (IsZero v = true →
      w ∉ (structAssoc (marshalFields (pre ++ ((nm, some t, true), v) :: post))).map Prod.fst) ∧
    (IsZero v = false →
      lookupLast (structAssoc (marshalFields (pre ++ ((nm, some t, true), v) :: post))) w =
        some (v, Marshal v) ∧
      ((∀ g ∈ pre ++ ((nm, some t, true), v) :: post, (Marshal g.2).err = none) →
        (Marshal v).bytes ≠ [] →
        ∃ pr po, (Marshal (VStruct (pre ++ ((nm, some t, true), v) :: post))).bytes =
          pr ++ marshalString w ++ (Marshal v).bytes ++ po)) := by
  set fields : List (FieldInfo × GoValue) := pre ++ ((nm, some t, true), v) :: post with hfields
  have hmf : marshalFields fields =
      pre.map (fun p => (p.1, p.2, Marshal p.2)) ++
        ((nm, some t, true), v, Marshal v) :: post.map (fun p => (p.1, p.2, Marshal p.2)) := by
    rw [marshalFields_eq_map, hfields]
    simp
  have hemit : fieldEmitNameR ((nm, some t, true), v, Marshal v) =
      if IsZero v then none else some w := by
    simp [fieldEmitNameR, hno, hoe, hw]
  have hothers' : ∀ f ∈ pre.map (fun p => (p.1, p.2, Marshal p.2)) ++
      post.map (fun p => (p.1, p.2, Marshal p.2)), fieldEmitNameR f ≠ some w := by
    intro f hf
    rcases List.mem_append.mp hf with hf' | hf'
    · obtain ⟨g, hg, hge⟩ := List.mem_map.mp hf'
      rw [← hge]
      exact hothers g (List.mem_append_left _ hg)
    · obtain ⟨g, hg, hge⟩ := List.mem_map.mp hf'
      rw [← hge]
      exact hothers g (List.mem_append_right _ hg)
  constructor
  · intro hz
    rw [hmf]
    intro hc
    rw [show structAssoc (pre.map (fun p => (p.1, p.2, Marshal p.2)) ++
        ((nm, some t, true), v, Marshal v) :: post.map (fun p => (p.1, p.2, Marshal p.2))) =
        structAssocAux (pre.map (fun p => (p.1, p.2, Marshal p.2)) ++
        ((nm, some t, true), v, Marshal v) :: post.map (fun p => (p.1, p.2, Marshal p.2))) []
      from rfl] at hc
    rcases (structAssocAux_mem_keys _ _ _).mp hc with ⟨f, hf, hfw⟩ | h'
    · rcases List.mem_append.mp hf with hf' | hf'
      · exact hothers' f (List.mem_append_left _ hf') hfw
      · rcases List.mem_cons.mp hf' with hf'' | hf''
        · rw [hf'', hemit, hz] at hfw
          simp at hfw
        · exact hothers' f (List.mem_append_right _ hf'') hfw
    · simp at h'
  · intro hz
    have hemit' : fieldEmitNameR ((nm, some t, true), v, Marshal v) = some w := by
      rw [hemit, hz]
      simp
    have hlook : lookupLast (structAssoc (marshalFields fields)) w = some (v, Marshal v) := by
      rw [hmf]
      show lookupLast (structAssocAux _ []) w = _
      have := structAssocAux_lookup_present
        (pre.map (fun p => (p.1, p.2, Marshal p.2)))
        (post.map (fun p => (p.1, p.2, Marshal p.2)))
        ((nm, some t, true), v, Marshal v) w hemit'
        (fun g hg => hothers' g (List.mem_append_left _ hg))
        (fun g hg => hothers' g (List.mem_append_right _ hg))
        [] (by simp)
      exact this
    refine ⟨hlook, ?_⟩
    intro hok hnb
    have hshape : ∀ k ∈ sortStrings ((structAssoc (marshalFields fields)).map Prod.fst),
        ∃ v' r', lookupLast (structAssoc (marshalFields fields)) k = some (v', r') ∧
          r'.err = none := by
      intro k hk
      have hkm : k ∈ (structAssoc (marshalFields fields)).map Prod.fst := mem_sortStrings.mp hk
      cases hl : lookupLast (structAssoc (marshalFields fields)) k with
      | none => exact absurd ((lookupLast_eq_none _ _).mp hl) (by simp [hkm])
      | some vr =>
        obtain ⟨v', r'⟩ := vr
        refine ⟨v', r', rfl, ?_⟩
        have hmem := lookupLast_some_mem hl
        have := structAssocAux_shape _ [] hmem
        rcases this with ⟨f, hf, hfv⟩ | h'
        · rw [hmf] at hf
          have : ∃ g ∈ fields, f = (g.1, g.2, Marshal g.2) := by
            rcases List.mem_append.mp hf with hf' | hf'
            · obtain ⟨g, hg, hge⟩ := List.mem_map.mp hf'
              exact ⟨g, by rw [hfields]; exact List.mem_append_left _ hg, hge.symm⟩
            · rcases List.mem_cons.mp hf' with hf'' | hf''
              · exact ⟨((nm, some t, true), v), by
                  rw [hfields]
                  exact List.mem_append_right _ (List.mem_cons_self _ _), hf''⟩
              · obtain ⟨g, hg, hge⟩ := List.mem_map.mp hf''
                exact ⟨g, by
                  rw [hfields]
                  exact List.mem_append_right _ (List.mem_cons_of_mem _ hg), hge.symm⟩
          obtain ⟨g, hg, hge⟩ := this
          rw [hge] at hfv
          have : r' = Marshal g.2 := congrArg Prod.snd hfv
          rw [this]
          exact hok g hg
        · cases h'
    have hrender : Marshal (VStruct fields) =
        ⟨cD :: dictBody (structAssoc (marshalFields fields))
          (sortStrings ((structAssoc (marshalFields fields)).map Prod.fst)) ++ [cE], none⟩ := by
      show marshalStructGo (marshalFields fields) = _
      unfold marshalStructGo marshalMapGo
      rw [mapAssemble_render _ _ hshape]
      rfl
    have hwmem : w ∈ sortStrings ((structAssoc (marshalFields fields)).map Prod.fst) := by
      rw [mem_sortStrings]
      cases hl : lookupLast (structAssoc (marshalFields fields)) w with
      | none => rw [hlook] at hl; cases hl
      | some vr =>
        by_contra hc
        rw [(lookupLast_eq_none _ _).mpr hc] at hl
        cases hl
    obtain ⟨ks₁, ks₂, hks⟩ := List.append_of_mem hwmem
    refine ⟨cD :: dictBody (structAssoc (marshalFields fields)) ks₁,
            dictBody (structAssoc (marshalFields fields)) ks₂ ++ [cE], ?_⟩
    rw [hrender]
    show cD :: dictBody (structAssoc (marshalFields fields))
        (sortStrings ((structAssoc (marshalFields fields)).map Prod.fst)) ++ [cE] = _
    rw [hks, show ks₁ ++ w :: ks₂ = ks₁ ++ [w] ++ ks₂ by simp, dictBody_append, dictBody_append]
    have hone : dictBody (structAssoc (marshalFields fields)) [w] =
        marshalString w ++ (Marshal v).bytes := by
      simp only [dictBody, List.map_cons, List.map_nil, List.flatten_cons, List.flatten_nil,
        dictEntryRender, hlook]
      rw [if_pos (by cases hb : (Marshal v).bytes with
        | nil => exact absurd hb hnb
        | cons x xs => simp [hb])]
      simp
    rw [hone]
    simp

/-- C9 witness: the two-field record `{A int `a,omitempty`; B int}` — with
`A = 0` the key `a` is absent from the encoded dictionary's content; with
`A = 7` the value is present under wire name `a` and the output bytes
contain `1:a` followed by `i7e`. -/
theorem c9_omitempty_witness :
    (strBytes "a") ∉ (structAssoc (marshalFields
      ([] ++ ((strBytes "A", some (strBytes "a,omitempty"), true), VInt 0) ::
        [((strBytes "B", none, true), VInt 3)]))).map Prod.fst ∧
    lookupLast (structAssoc (marshalFields
      ([] ++ ((strBytes "A", some (strBytes "a,omitempty"), true), VInt 7) ::
        [((strBytes "B", none, true), VInt 3)]))) (strBytes "a") =
      some (VInt 7, Marshal (VInt 7)) ∧
    (∃ pr po, (Marshal (VStruct
      ([] ++ ((strBytes "A", some (strBytes "a,omitempty"), true), VInt 7) ::
        [((strBytes "B", none, true), VInt 3)]))).bytes =
      pr ++ marshalString (strBytes "a") ++ (Marshal (VInt 7)).bytes ++ po) :=
  ⟨(c9_omitempty [] [((strBytes "B", none, true), VInt 3)] (strBytes "A")
      (strBytes "a,omitempty") (strBytes "a") (VInt 0) (by decide) (by decide) (by decide)
      (by decide)).1 (by decide),
   ((c9_omitempty [] [((strBytes "B", none, true), VInt 3)] (strBytes "A")
      (strBytes "a,omitempty") (strBytes "a") (VInt 7) (by decide) (by decide) (by decide)
      (by decide)).2 (by decide)).1,
   ((c9_omitempty [] [((strBytes "B", none, true), VInt 3)] (strBytes "A")
      (strBytes "a,omitempty") (strBytes "a") (VInt 7) (by decide) (by decide) (by decide)
      (by decide)).2 (by decide)).2 (by decide) (by decide)⟩

/-! ### Claim C5: unsupported shapes (amended part) -/

lemma listAssemble_err (rs₁ : List GoResult) (r : GoResult) (rs₂ : List GoResult)
    (acc : List Nat) (hok : ∀ x ∈ rs₁, x.err = none) (herr : r.err.isSome) :
    listAssemble (rs₁ ++ r :: rs₂) acc =
      ⟨acc ++ (rs₁.map GoResult.bytes).flatten ++ r.bytes ++ [cE], r.err⟩ := by
  induction rs₁ generalizing acc with
  | nil =>
    obtain ⟨e, he⟩ := Option.isSome_iff_exists.mp herr
    simp [listAssemble, he]
  | cons x rs ih =>
    have hx : x.err = none := hok x (List.mem_cons_self _ _)
    simp only [List.cons_append, listAssemble, hx]
    simp only [List.append_eq]
    rw [ih _ (fun y hy => hok y (List.mem_cons_of_mem _ hy))]
    simp

lemma mapAssemble_err (ks : List (List Nat)) (pairs : List (List Nat × GoValue × GoResult))
    (acc : List Nat) (k : List Nat) (v : GoValue) (r : GoResult)
    (hk : k ∈ ks) (hl : lookupLast pairs k = some (v, r)) (he : r.err.isSome) :
    (mapAssemble pairs ks acc).bytes = [] ∧ (mapAssemble pairs ks acc).err.isSome := by
  induction ks generalizing acc with
  | nil => cases hk
  | cons k' ks ih =>
    simp only [mapAssemble]
    cases hl' : lookupLast pairs k' with
    | none => simp
    | some vr =>
      obtain ⟨v', r'⟩ := vr
      cases he' : r'.err with
      | some e => simp [he']
      | none =>
        have hk' : k ∈ ks := by
          rcases List.mem_cons.mp hk with h | h
          · subst h
            rw [hl] at hl'
            injection hl' with hvr
            have : r = r' := congrArg Prod.snd hvr
            rw [this, he'] at he
            cases he
          · exact h
        simp only [he']
        split <;> exact ih _ hk'

/-- C5 (amended): a value of unsupported shape makes `Marshal` fail with
the `unsupported type` error; at top level and inside a map no output
bytes accompany the error (`nil` is returned), but inside a list the error
is returned *together with* partial output: the `'l'` prefix, the bytes of
the elements already encoded, the failing element's partial bytes, and a
closing `'e'`. -/
theorem c5_amended :
    Marshal VComplex = ⟨[], some "unsupported type complex128"⟩ ∧
    (∀ entries : List (List Nat × GoValue), (entries.map Prod.fst).Nodup →
      (∃ p ∈ entries, (Marshal p.2).err.isSome) →
      (Marshal (VMap entries)).bytes = [] ∧ (Marshal (VMap entries)).err.isSome) ∧
    (∀ pre x post, (∀ p ∈ pre, (Marshal p).err = none) → (Marshal x).err.isSome →
      Marshal (VList (pre ++ x :: post)) =
        ⟨cL :: ((pre.map (fun p => (Marshal p).bytes)).flatten ++ (Marshal x).bytes) ++ [cE],
         (Marshal x).err⟩) := by
  refine ⟨rfl, ?_, ?_⟩
  · intro entries hnd ⟨p, hp, hperr⟩
    have hndm : ((marshalEntries entries).map Prod.fst).Nodup := by
      rw [marshalEntries_map_fst]; exact hnd
    have hl : lookupLast (marshalEntries entries) p.1 = some (p.2, Marshal p.2) := by
      apply lookupLast_mem_nodup hndm
      rw [marshalEntries_eq_map]
      exact List.mem_map.mpr ⟨p, hp, rfl⟩
    have hk : p.1 ∈ sortStrings ((marshalEntries entries).map Prod.fst) := by
      rw [mem_sortStrings, marshalEntries_map_fst]
      exact List.mem_map.mpr ⟨p, hp, rfl⟩
    exact mapAssemble_err _ _ _ _ _ _ hk hl hperr
  · intro pre x post hok herr
    show marshalListGo (marshalElems (pre ++ x :: post)) = _
    rw [marshalElems_eq_map]
    unfold marshalListGo
    rw [List.map_append, List.map_cons]
    rw [listAssemble_err _ _ _ _ (by
      intro y hy
      obtain ⟨p, hp, hpy⟩ := List.mem_map.mp hy
      rw [← hpy]
      exact hok p hp) herr]
    simp [List.map_map]
    rfl

/-- C5 witness: the amended theorem at concrete inputs — a map with a
complex value returns `nil` bytes with the error; the list `[1, complex]`
returns the partial bytes `li1ee` together with the error. -/
theorem c5_amended_witness :
    ((Marshal (VMap [(strBytes "k", VComplex)])).bytes = [] ∧
      (Marshal (VMap [(strBytes "k", VComplex)])).err.isSome) ∧
    Marshal (VList ([VInt 1] ++ VComplex :: [])) =
      ⟨cL :: (([VInt 1].map (fun p => (Marshal p).bytes)).flatten ++
        (Marshal VComplex).bytes) ++ [cE], (Marshal VComplex).err⟩ :=
  ⟨c5_amended.2.1 [(strBytes "k", VComplex)] (by decide)
      ⟨(strBytes "k", VComplex), List.mem_cons_self _ _, by decide⟩,
   c5_amended.2.2 [VInt 1] VComplex []
      (fun p hp => by
        rcases List.mem_cons.mp hp with h | h
        · rw [h]; rfl
        · cases h)
      (by decide)⟩

/-! ### Encoder output shape facts -/

lemma listAssemble_ok (rs : List GoResult) (hok : ∀ r ∈ rs, r.err = none) (acc : List Nat) :
    listAssemble rs acc = ⟨acc ++ (rs.map GoResult.bytes).flatten ++ [cE], none⟩ := by
  induction rs generalizing acc with
  | nil => simp [listAssemble]
  | cons r rs ih =>
    have hr : r.err = none := hok r (List.mem_cons_self _ _)
    simp only [listAssemble, hr]
    rw [ih (fun x hx => hok x (List.mem_cons_of_mem _ hx))]
    simp

lemma listAssemble_err_of_mem (rs : List GoResult) (acc : List Nat)
    (h : ∃ r ∈ rs, r.err.isSome) : (listAssemble rs acc).err.isSome := by
  induction rs generalizing acc with
  | nil => obtain ⟨r, hr, _⟩ := h; cases hr
  | cons r rs ih =>
    simp only [listAssemble]
    cases he : r.err with
    | some e => simp
    | none =>
      apply ih
      obtain ⟨r', hr', he'⟩ := h
      rcases List.mem_cons.mp hr' with h' | h'
      · rw [h', he] at he'; cases he'
      · exact ⟨r', h', he'⟩

lemma marshal_list_ok {xs : List GoValue} (hok : (Marshal (VList xs)).err = none) :
    ∀ x ∈ xs, (Marshal x).err = none := by
  intro x hx
  cases he : (Marshal x).err with
  | none => rfl
  | some e =>
    have : (marshalListGo (marshalElems xs)).err.isSome := by
      apply listAssemble_err_of_mem
      rw [marshalElems_eq_map]
      exact ⟨Marshal x, List.mem_map.mpr ⟨x, hx, rfl⟩, by rw [he]; rfl⟩
    rw [show marshalListGo (marshalElems xs) = Marshal (VList xs) from rfl, hok] at this
    cases this

lemma marshal_list_bytes {xs : List GoValue} (hok : (Marshal (VList xs)).err = none) :
    Marshal (VList xs) =
      ⟨cL :: (xs.map (fun x => (Marshal x).bytes)).flatten ++ [cE], none⟩ := by
  show marshalListGo (marshalElems xs) = _
  unfold marshalListGo
  rw [marshalElems_eq_map,
    listAssemble_ok _ (by
      intro r hr
      obtain ⟨x, hx, hxr⟩ := List.mem_map.mp hr
      rw [← hxr]
      exact marshal_list_ok hok x hx)]
  simp [List.map_map]
  rfl

lemma mapAssemble_bytes_prefix (pairs : List (List Nat × GoValue × GoResult))
    (ks : List (List Nat)) (acc : List Nat)
    (hok : (mapAssemble pairs ks acc).err = none) :
    ∃ s, (mapAssemble pairs ks acc).bytes = acc ++ s := by
  induction ks generalizing acc with
  | nil => exact ⟨[cE], rfl⟩
  | cons k ks ih =>
    simp only [mapAssemble] at hok ⊢
    cases hl : lookupLast pairs k with
    | none => simp only [hl] at hok; cases hok
    | some vr =>
      obtain ⟨v, r⟩ := vr
      simp only [hl] at hok ⊢
      cases he : r.err with
      | some e => simp only [he] at hok; cases hok
      | none =>
        simp only [he] at hok ⊢
        by_cases hb : r.bytes.length > 0
        · rw [if_pos hb] at hok ⊢
          obtain ⟨s, hs⟩ := ih _ hok
          exact ⟨marshalString k ++ r.bytes ++ s, by rw [hs]; simp⟩
        · rw [if_neg hb] at hok ⊢
          exact ih _ hok

lemma marshal_bytes_cons (v : GoValue) (hok : (Marshal v).err = none) :
    ∃ c bs, (Marshal v).bytes = c :: bs ∧ c ≠ cE := by
  cases v with
  | VInt i => exact ⟨cI, intToDec i ++ [cE], rfl, by unfold cI cE; omega⟩
  | VString s =>
    have hne := natToDec_ne_nil s.length
    cases h : natToDec s.length with
    | nil => exact absurd h hne
    | cons d ds =>
      have hd : 48 ≤ d ∧ d ≤ 57 := natToDec_digits (by rw [h]; exact List.mem_cons_self _ _)
      refine ⟨d, ds ++ cColon :: s, ?_, by unfold cE; omega⟩
      show marshalString s = _
      unfold marshalString
      rw [h]
      simp
  | VBytes b =>
    have hne := natToDec_ne_nil b.length
    cases h : natToDec b.length with
    | nil => exact absurd h hne
    | cons d ds =>
      have hd : 48 ≤ d ∧ d ≤ 57 := natToDec_digits (by rw [h]; exact List.mem_cons_self _ _)
      refine ⟨d, ds ++ cColon :: b, ?_, by unfold cE; omega⟩
      show marshalString b = _
      unfold marshalString
      rw [h]
      simp
  | VList xs =>
    rw [marshal_list_bytes hok]
    exact ⟨cL, _, rfl, by unfold cL cE; omega⟩
  | VMap entries =>
    obtain ⟨s, hs⟩ := mapAssemble_bytes_prefix (marshalEntries entries) _ [cD] hok
    exact ⟨cD, s, hs, by unfold cD cE; omega⟩
  | VStruct fields =>
    obtain ⟨s, hs⟩ := mapAssemble_bytes_prefix (structAssoc (marshalFields fields)) _ [cD] hok
    exact ⟨cD, s, hs, by unfold cD cE; omega⟩
  | VComplex => cases hok

lemma marshal_map_values_ok (pairs : List (List Nat × GoValue × GoResult))
    (hnd : (pairs.map Prod.fst).Nodup) (hok : (marshalMapGo pairs).err = none) :
    ∀ x ∈ pairs, x.2.2.err = none := by
  intro x hx
  obtain ⟨k, v, r⟩ := x
  cases he : r.err with
  | none => rfl
  | some e =>
    have hl : lookupLast pairs k = some (v, r) := lookupLast_mem_nodup hnd hx
    have hk : k ∈ sortStrings (pairs.map Prod.fst) := by
      rw [mem_sortStrings]
      exact List.mem_map.mpr ⟨(k, v, r), hx, rfl⟩
    have := (mapAssemble_err _ pairs [cD] k v r hk hl (by rw [he]; rfl)).2
    rw [show mapAssemble pairs (sortStrings (pairs.map Prod.fst)) [cD] = marshalMapGo pairs
      from rfl, hok] at this
    cases this

/-! ### Well-formedness and size facts -/

lemma WFbList_mem {xs : List GoValue} (h : WFbList xs = true) {x : GoValue} (hx : x ∈ xs) :
    WFb x = true := by
  induction xs with
  | nil => cases hx
  | cons y ys ih =>
    simp only [WFbList, Bool.and_eq_true] at h
    rcases List.mem_cons.mp hx with h' | h'
    · rw [h']; exact h.1
    · exact ih h.2 h'

lemma WFbPairs_mem {entries : List (List Nat × GoValue)} (h : WFbPairs entries = true)
    {p : List Nat × GoValue} (hp : p ∈ entries) : WFb p.2 = true := by
  induction entries with
  | nil => cases hp
  | cons q qs ih =>
    obtain ⟨k, v⟩ := q
    simp only [WFbPairs, Bool.and_eq_true] at h
    rcases List.mem_cons.mp hp with h' | h'
    · rw [h']; exact h.1
    · exact ih h.2 h'

lemma WFbFields_mem {fields : List (FieldInfo × GoValue)} (h : WFbFields fields = true)
    {p : FieldInfo × GoValue} (hp : p ∈ fields) : WFb p.2 = true := by
  induction fields with
  | nil => cases hp
  | cons q qs ih =>
    obtain ⟨fi, v⟩ := q
    simp only [WFbFields, Bool.and_eq_true] at h
    rcases List.mem_cons.mp hp with h' | h'
    · rw [h']; exact h.1
    · exact ih h.2 h'

lemma sizeOf_mem_list {x : GoValue} {xs : List GoValue} (h : x ∈ xs) :
    sizeOf x < sizeOf (VList xs) := by
  have := List.sizeOf_lt_of_mem h
  simp only [VList.sizeOf_spec]
  omega

lemma sizeOf_mem_pairs {p : List Nat × GoValue} {entries : List (List Nat × GoValue)}
    (h : p ∈ entries) : sizeOf p.2 < sizeOf (VMap entries) := by
  have h1 := List.sizeOf_lt_of_mem h
  obtain ⟨k, v⟩ := p
  simp only [Prod.mk.sizeOf_spec] at h1
  simp only [VMap.sizeOf_spec]
  omega

lemma sizeOf_mem_fields {p : FieldInfo × GoValue} {fields : List (FieldInfo × GoValue)}
    (h : p ∈ fields) : sizeOf p.2 < sizeOf (VStruct fields) := by
  have h1 := List.sizeOf_lt_of_mem h
  obtain ⟨fi, v⟩ := p
  simp only [Prod.mk.sizeOf_spec] at h1
  simp only [VStruct.sizeOf_spec]
  omega

/-! ### Generic-decode rebuilding facts -/

lemma decListToGo_eq_map (xs : List DecValue) : decListToGo xs = xs.map decToGo := by
  induction xs with
  | nil => rfl
  | cons x rest ih => simp [decListToGo, ih]

lemma decPairsToGo_eq_map (ps : List (List Nat × DecValue)) :
    decPairsToGo ps = ps.map fun p => (p.1, decToGo p.2) := by
  induction ps with
  | nil => rfl
  | cons p rest ih => cases p; simp [decPairsToGo, ih]

lemma lookupLast_cons_ne {α : Type} {k k' : List Nat} (x : α)
    (rest : List (List Nat × α)) (h : k' ≠ k) :
    lookupLast ((k, x) :: rest) k' = lookupLast rest k' := by
  simp only [lookupLast]
  cases lookupLast rest k' with
  | some r => rfl
  | none => rw [if_neg (fun hc => h hc.symm)]

lemma upsert_append {α : Type} (l : List (List Nat × α)) (k : List Nat) (v : α)
    (h : k ∉ l.map Prod.fst) : upsert l k v = l ++ [(k, v)] := by
  induction l with
  | nil => rfl
  | cons p rest ih =>
    obtain ⟨k', v'⟩ := p
    simp only [List.map_cons, List.mem_cons, not_or] at h
    simp only [upsert]
    rw [if_neg (fun hc => h.1 hc.symm), ih h.2]
    rfl

/-- The concatenated bytes of an association list's pairs as the
dictionary emission loop writes them (encoded key, then pre-encoded
value). -/
def dictBodyBytes (qs : List (List Nat × GoValue)) : List Nat :=
  (qs.map fun q => marshalString q.1 ++ (Marshal q.2).bytes).flatten

lemma dictBodyBytes_factor (qs : List (List Nat × GoValue)) :
    dictBodyBytes qs =
      ((qs.map fun q => (q.1, Marshal q.2)).map fun pr => marshalString pr.1 ++ pr.2.bytes).flatten := by
  rw [dictBodyBytes, List.map_map]
  rfl

/-- Iterating an association list's own keys renders its own entries, when
the keys are distinct and every value's encoding is nonempty. -/
lemma dictBody_of_assoc (qs : List (List Nat × GoValue))
    (hnd : (qs.map Prod.fst).Nodup)
    (hne : ∀ q ∈ qs, (Marshal q.2).bytes ≠ []) :
    dictBody (marshalEntries qs) (qs.map Prod.fst) = dictBodyBytes qs := by
  induction qs with
  | nil => rfl
  | cons q rest ih =>
    obtain ⟨k, v⟩ := q
    simp only [List.map_cons, List.nodup_cons] at hnd
    simp only [dictBody, dictBodyBytes, List.map_cons, List.flatten_cons]
    have hself : lookupLast (marshalEntries ((k, v) :: rest)) k = some (v, Marshal v) := by
      apply lookupLast_mem_nodup
      · rw [marshalEntries_map_fst]
        simp only [List.map_cons, List.nodup_cons]
        exact hnd
      · rw [marshalEntries_eq_map]
        exact List.mem_cons_self _ _
    have hrender : dictEntryRender (marshalEntries ((k, v) :: rest)) k =
        marshalString k ++ (Marshal v).bytes := by
      unfold dictEntryRender
      rw [hself]
      show (if (Marshal v).bytes.length > 0 then marshalString k ++ (Marshal v).bytes else []) = _
      rw [if_pos (by
        have := hne (k, v) (List.mem_cons_self _ _)
        cases hb : (Marshal v).bytes with
        | nil => exact absurd hb this
        | cons x xs => simp [hb])]
    rw [hrender]
    congr 1
    have htail : ∀ k' ∈ rest.map Prod.fst,
        dictEntryRender (marshalEntries ((k, v) :: rest)) k' =
          dictEntryRender (marshalEntries rest) k' := by
      intro k' hk'
      have hkk : k' ≠ k := fun hc => hnd.1 (hc ▸ hk')
      unfold dictEntryRender
      rw [show marshalEntries ((k, v) :: rest) = (k, v, Marshal v) :: marshalEntries rest
        from rfl]
      rw [lookupLast_cons_ne _ _ hkk]
    calc (List.map (dictEntryRender (marshalEntries ((k, v) :: rest))) (rest.map Prod.fst)).flatten
        = (List.map (dictEntryRender (marshalEntries rest)) (rest.map Prod.fst)).flatten := by
          congr 1
          exact List.map_congr_left htail
      _ = dictBodyBytes rest := ih hnd.2 (fun q hq => hne q (List.mem_cons_of_mem _ hq))

/-- Extract, from the sorted-key iteration of a dictionary encode, the
association list of pairs it emits. -/
lemma dictBody_eq (pairs : List (List Nat × GoValue × GoResult)) (ks : List (List Nat))
    (h : ∀ k ∈ ks, ∃ v, lookupLast pairs k = some (v, Marshal v) ∧ (Marshal v).bytes ≠ []) :
    ∃ ps : List (List Nat × GoValue),
      ps.map Prod.fst = ks ∧
      (∀ p ∈ ps, lookupLast pairs p.1 = some (p.2, Marshal p.2)) ∧
      dictBody pairs ks = dictBodyBytes ps := by
  induction ks with
  | nil => exact ⟨[], rfl, fun p hp => absurd hp (List.not_mem_nil p), rfl⟩
  | cons k ks ih =>
    obtain ⟨v, hl, hne⟩ := h k (List.mem_cons_self _ _)
    obtain ⟨ps', hfst, hlook, hbody⟩ := ih (fun k' hk' => h k' (List.mem_cons_of_mem _ hk'))
    refine ⟨(k, v) :: ps', by simp [hfst], ?_, ?_⟩
    · intro p hp
      rcases List.mem_cons.mp hp with h' | h'
      · rw [h']; exact hl
      · exact hlook p h'
    · simp only [dictBody, dictBodyBytes, List.map_cons, List.flatten_cons] at hbody ⊢
      rw [show dictEntryRender pairs k = marshalString k ++ (Marshal v).bytes by
        unfold dictEntryRender
        rw [hl]
        show (if (Marshal v).bytes.length > 0 then marshalString k ++ (Marshal v).bytes else []) = _
        rw [if_pos (by
          cases hb : (Marshal v).bytes with
          | nil => exact absurd hb hne
          | cons x xs => simp [hb])]]
      rw [show (List.map (dictEntryRender pairs) ks).flatten = dictBodyBytes ps' from hbody]
      rfl

/-- The central decode-correctness property: decoding the value's
canonical encoding (with any suffix) consumes the encoding — all of it
for a byte string, all but the terminating byte for an integer, list or
dictionary — and produces a generic value whose re-encoding is
byte-identical. -/
def DecodesCanonically (v : GoValue) : Prop :=
  ∀ rest : List Nat, ∃ f₀ dv,
    (∀ f, f₀ ≤ f →
      Unmarshal f ((Marshal v).bytes ++ rest) =
        .ok (dv, (Marshal v).bytes.length - tagTrail (Marshal v).bytes.headI)) ∧
    Marshal (decToGo dv) = Marshal v

lemma tagTrail_le_one (c : Nat) : tagTrail c ≤ 1 := by
  unfold tagTrail
  split <;> omega

lemma listLoop_decodes (xs : List GoValue)
    (hall : ∀ x ∈ xs, (Marshal x).err = none ∧ DecodesCanonically x) :
    ∀ (rest data : List Nat) (i : Nat) (acc : List DecValue),
      data.drop i = (xs.map fun x => (Marshal x).bytes).flatten ++ cE :: rest →
      ∃ f₀ dvs,
        (decListToGo dvs).map Marshal = xs.map Marshal ∧
        ∀ f, f₀ ≤ f →
          unmarshalListLoop f data i acc =
            .ok (.DList (acc ++ dvs), i + ((xs.map fun x => (Marshal x).bytes).flatten).length) := by
  induction xs with
  | nil =>
    intro rest data i acc hdrop
    refine ⟨1, [], rfl, ?_⟩
    intro f hf
    cases f with
    | zero => omega
    | succ g =>
      simp only [List.map_nil, List.flatten_nil, List.nil_append] at hdrop
      simp only [unmarshalListLoop, hdrop]
      simp
  | cons x xs ih =>
    intro rest data i acc hdrop
    have hx := hall x (List.mem_cons_self _ _)
    obtain ⟨c, bs, henc, hce⟩ := marshal_bytes_cons x hx.1
    have hdrop' : data.drop i =
        (Marshal x).bytes ++ ((xs.map fun y => (Marshal y).bytes).flatten ++ cE :: rest) := by
      rw [hdrop]
      simp
    obtain ⟨f₁, dv, hdec, hremarshal⟩ :=
      hx.2 ((xs.map fun y => (Marshal y).bytes).flatten ++ cE :: rest)
    have hdrop₂ : data.drop (i + (Marshal x).bytes.length) =
        (xs.map fun y => (Marshal y).bytes).flatten ++ cE :: rest := by
      rw [← List.drop_drop, hdrop', List.drop_left]
    obtain ⟨f₂, dvs', hmap', hloop'⟩ :=
      ih (fun y hy => hall y (List.mem_cons_of_mem _ hy)) rest data
        (i + (Marshal x).bytes.length) (acc ++ [dv]) hdrop₂
    refine ⟨max f₁ f₂ + 1, dv :: dvs', ?_, ?_⟩
    · simp only [decListToGo, List.map_cons]
      rw [hremarshal, hmap']
    · intro f hf
      cases f with
      | zero => omega
      | succ g =>
        have hg₁ : f₁ ≤ g := by omega
        have hg₂ : f₂ ≤ g := by omega
        have hcons : data.drop i = c :: (bs ++ ((xs.map fun y => (Marshal y).bytes).flatten ++ cE :: rest)) := by
          rw [hdrop', henc]
          simp
        simp only [unmarshalListLoop, hcons, if_neg hce]
        rw [← hcons, hdrop', hdec g hg₁]
        have hhead : (Marshal x).bytes.headI = c := by rw [henc]; rfl
        have hlen : 1 ≤ (Marshal x).bytes.length := by rw [henc]; simp
        have htrail := tagTrail_le_one c
        have harith : i + ((Marshal x).bytes.length - tagTrail (Marshal x).bytes.headI) +
            tagTrail c = i + (Marshal x).bytes.length := by
          rw [hhead]
          omega
        show unmarshalListLoop g data
            (i + ((Marshal x).bytes.length - tagTrail (Marshal x).bytes.headI) + tagTrail c)
            (acc ++ [dv]) = _
        rw [harith, hloop' g hg₂]
        simp [List.append_assoc, Nat.add_assoc]

lemma marshalString_cons (s : List Nat) :
    ∃ d ms', marshalString s = d :: ms' ∧ 48 ≤ d ∧ d ≤ 57 := by
  have hne := natToDec_ne_nil s.length
  cases h : natToDec s.length with
  | nil => exact absurd h hne
  | cons d ds =>
    have hd : 48 ≤ d ∧ d ≤ 57 := natToDec_digits (by rw [h]; exact List.mem_cons_self _ _)
    exact ⟨d, ds ++ cColon :: s, by unfold marshalString; rw [h]; simp, hd.1, hd.2⟩

lemma dictLoop_decodes (ps : List (List Nat × GoValue))
    (hall : ∀ p ∈ ps, (Marshal p.2).err = none ∧ DecodesCanonically p.2) :
    ∀ (tailBytes data : List Nat) (i : Nat) (acc : List (List Nat × DecValue)),
      data.drop i = dictBodyBytes ps ++ tailBytes →
      (tailBytes = [] ∨ ∃ r', tailBytes = cE :: r') →
      ((acc.map Prod.fst) ++ ps.map Prod.fst).Nodup →
      ∃ f₀ dps,
        (decPairsToGo dps).map (fun q => (q.1, Marshal q.2)) =
          ps.map (fun p => (p.1, Marshal p.2)) ∧
        ∀ f, f₀ ≤ f →
          unmarshalDictLoop f data i acc =
            .ok (.DDict (acc ++ dps), i + (dictBodyBytes ps).length) := by
  induction ps with
  | nil =>
    intro tailBytes data i acc hdrop htail _
    refine ⟨1, [], rfl, ?_⟩
    intro f hf
    cases f with
    | zero => omega
    | succ g =>
      simp only [dictBodyBytes, List.map_nil, List.flatten_nil, List.nil_append] at hdrop
      rcases htail with h | ⟨r', h⟩
      · rw [h] at hdrop
        simp only [unmarshalDictLoop, hdrop]
        simp [dictBodyBytes]
      · rw [h] at hdrop
        simp only [unmarshalDictLoop, hdrop]
        simp [dictBodyBytes]
  | cons p ps ih =>
    obtain ⟨k, v⟩ := p
    intro tailBytes data i acc hdrop htail hnd
    have hp := hall (k, v) (List.mem_cons_self _ _)
    have hbody : dictBodyBytes ((k, v) :: ps) =
        (marshalString k ++ (Marshal v).bytes) ++ dictBodyBytes ps := by
      simp [dictBodyBytes]
    have hdrop' : data.drop i =
        marshalString k ++ ((Marshal v).bytes ++ (dictBodyBytes ps ++ tailBytes)) := by
      rw [hdrop, hbody]
      simp
    obtain ⟨d, ms', hms, hd1, hd2⟩ := marshalString_cons k
    obtain ⟨c', bs', henc', hce'⟩ := marshal_bytes_cons v hp.1
    -- after the key, the buffer continues with the value bytes
    have hdrop₂ : data.drop (i + (marshalString k).length) =
        (Marshal v).bytes ++ (dictBodyBytes ps ++ tailBytes) := by
      rw [← List.drop_drop, hdrop', List.drop_left]
    obtain ⟨f₁, dv, hdec, hremarshal⟩ := hp.2 (dictBodyBytes ps ++ tailBytes)
    have hdrop₃ : data.drop (i + (marshalString k).length + (Marshal v).bytes.length) =
        dictBodyBytes ps ++ tailBytes := by
      rw [← List.drop_drop, hdrop₂, List.drop_left]
    -- the inserted key is fresh in the accumulator
    have hknotacc : k ∉ acc.map Prod.fst := by
      intro hc
      have := (List.nodup_append.mp hnd).2.2
      exact this hc (by simp)
    have hupsert : upsert acc k dv = acc ++ [(k, dv)] := upsert_append _ _ _ hknotacc
    have hnd' : (((acc ++ [(k, dv)]).map Prod.fst) ++ ps.map Prod.fst).Nodup := by
      have : ((acc ++ [(k, dv)]).map Prod.fst) ++ ps.map Prod.fst =
          (acc.map Prod.fst) ++ (k :: ps.map Prod.fst) := by simp
      rw [this]
      simpa using hnd
    obtain ⟨f₂, dps', hmap', hloop'⟩ :=
      ih (fun q hq => hall q (List.mem_cons_of_mem _ hq)) tailBytes data
        (i + (marshalString k).length + (Marshal v).bytes.length) (acc ++ [(k, dv)])
        hdrop₃ htail hnd'
    refine ⟨max f₁ f₂ + 1, (k, dv) :: dps', ?_, ?_⟩
    · simp only [decPairsToGo, List.map_cons]
      rw [hremarshal, hmap']
    · intro f hf
      cases f with
      | zero => omega
      | succ g =>
        have hg₁ : f₁ ≤ g := by omega
        have hg₂ : f₂ ≤ g := by omega
        have hcons : data.drop i =
            d :: (ms' ++ ((Marshal v).bytes ++ (dictBodyBytes ps ++ tailBytes))) := by
          rw [hdrop', hms]
          simp
        have hde : d ≠ cE := by unfold cE; omega
        simp only [unmarshalDictLoop, hcons, if_neg hde]
        rw [← hcons, hdrop', unmarshalString_correct]
        have hcons₂ : data.drop (i + (marshalString k).length) =
            c' :: (bs' ++ (dictBodyBytes ps ++ tailBytes)) := by
          rw [hdrop₂, henc']
          simp
        simp only [hcons₂]
        rw [← hcons₂, hdrop₂, hdec g hg₁]
        have hhead : (Marshal v).bytes.headI = c' := by rw [henc']; rfl
        have hlen : 1 ≤ (Marshal v).bytes.length := by rw [henc']; simp
        have htrail := tagTrail_le_one c'
        show unmarshalDictLoop g data
            (i + (marshalString k).length +
              ((Marshal v).bytes.length - tagTrail (Marshal v).bytes.headI) + tagTrail c')
            (upsert acc k dv) = _
        have harith : i + (marshalString k).length +
            ((Marshal v).bytes.length - tagTrail (Marshal v).bytes.headI) + tagTrail c' =
            i + (marshalString k).length + (Marshal v).bytes.length := by
          rw [hhead]
          omega
        rw [harith, hupsert, hloop' g hg₂]
        rw [hbody]
        simp [List.append_assoc, Nat.add_assoc]

/-! ### Dispatch of `Unmarshal` by the peeked first byte -/

lemma unmarshal_int_dispatch (g : Nat) (t : List Nat) :
    Unmarshal (g + 1) (cI :: t) =
      (match unmarshalInt (cI :: t) with
       | .ok (v, n) => .ok (.DInt v, n)
       | .err n m => .err n m
       | .panic => .panic
       | .fuelOut => .fuelOut) := by
  simp [Unmarshal, cI, cL, cD]

lemma unmarshal_list_dispatch (g : Nat) (t : List Nat) :
    Unmarshal (g + 1) (cL :: t) = unmarshalListLoop g (cL :: t) 1 [] := by
  simp [Unmarshal, cI, cL, cD]

lemma unmarshal_dict_dispatch (g : Nat) (t : List Nat) :
    Unmarshal (g + 1) (cD :: t) = unmarshalDictLoop g (cD :: t) 1 [] := by
  simp [Unmarshal, cI, cL, cD]

lemma unmarshal_string_dispatch (g : Nat) (c : Nat) (t : List Nat)
    (h1 : c ≠ cI) (h2 : c ≠ cL) (h3 : c ≠ cD) :
    Unmarshal (g + 1) (c :: t) =
      (match unmarshalString (c :: t) with
       | .ok (s, n) => .ok (.DString s, n)
       | .err n m => .err n m
       | .panic => .panic
       | .fuelOut => .fuelOut) := by
  simp only [Unmarshal]
  rw [if_neg h1, if_neg h2, if_neg h3]

lemma tagTrail_digit {c : Nat} (h1 : 48 ≤ c) (h2 : c ≤ 57) : tagTrail c = 0 := by
  unfold tagTrail
  rw [if_neg]
  simp only [Bool.or_eq_true, decide_eq_true_eq, not_or]
  unfold cI cL cD
  omega

/-! ### Decoding a canonically encoded dictionary -/

lemma remarshal_dict (ps : List (List Nat × GoValue)) (dps : List (List Nat × DecValue))
    (hsorted : List.Sorted lexLeP (ps.map Prod.fst)) (hnd : (ps.map Prod.fst).Nodup)
    (hE : (decPairsToGo dps).map (fun q => (q.1, Marshal q.2)) =
      ps.map (fun p => (p.1, Marshal p.2)))
    (hvals : ∀ p ∈ ps, (Marshal p.2).err = none) :
    Marshal (decToGo (DDict dps)) = ⟨cD :: dictBodyBytes ps ++ [cE], none⟩ := by
  have hqfst : (decPairsToGo dps).map Prod.fst = ps.map Prod.fst := by
    have h1 := congrArg (List.map Prod.fst) hE
    simpa [List.map_map, Function.comp] using h1
  have hqvals : ∀ q ∈ decPairsToGo dps, ∃ p ∈ ps, q.1 = p.1 ∧ Marshal q.2 = Marshal p.2 := by
    intro q hq
    have hm : (q.1, Marshal q.2) ∈ (decPairsToGo dps).map (fun q => (q.1, Marshal q.2)) :=
      List.mem_map.mpr ⟨q, hq, rfl⟩
    rw [hE] at hm
    obtain ⟨p, hp, hpe⟩ := List.mem_map.mp hm
    refine ⟨p, hp, ?_, ?_⟩
    · have := congrArg Prod.fst hpe
      simpa using this.symm
    · have := congrArg Prod.snd hpe
      simpa using this.symm
  have hqnd : ((decPairsToGo dps).map Prod.fst).Nodup := by rw [hqfst]; exact hnd
  have hqok : ∀ q ∈ decPairsToGo dps, (Marshal q.2).err = none := by
    intro q hq
    obtain ⟨p, hp, _, hm⟩ := hqvals q hq
    rw [hm]
    exact hvals p hp
  have hqne : ∀ q ∈ decPairsToGo dps, (Marshal q.2).bytes ≠ [] := by
    intro q hq
    obtain ⟨c, bs, hcb, _⟩ := marshal_bytes_cons q.2 (hqok q hq)
    rw [hcb]
    simp
  show marshalMapGo (marshalEntries (decPairsToGo dps)) = _
  unfold marshalMapGo
  rw [marshalEntries_map_fst, hqfst, sortStrings_of_sorted hsorted]
  have hex : ∀ k ∈ ps.map Prod.fst, ∃ v r,
      lookupLast (marshalEntries (decPairsToGo dps)) k = some (v, r) ∧ r.err = none := by
    intro k hk
    rw [← hqfst] at hk
    obtain ⟨q, hq, hqk⟩ := List.mem_map.mp hk
    refine ⟨q.2, Marshal q.2, ?_, hqok q hq⟩
    apply lookupLast_mem_nodup (by rw [marshalEntries_map_fst]; exact hqnd)
    rw [marshalEntries_eq_map]
    exact List.mem_map.mpr ⟨q, hq, by rw [← hqk]⟩
  rw [mapAssemble_render _ _ hex]
  have hbody : dictBody (marshalEntries (decPairsToGo dps)) (ps.map Prod.fst) =
      dictBodyBytes ps := by
    rw [← hqfst, dictBody_of_assoc _ hqnd hqne, dictBodyBytes_factor, hE,
      ← dictBodyBytes_factor]
  rw [hbody]
  rfl

lemma dict_decodes (pairs : List (List Nat × GoValue × GoResult))
    (hnd : (pairs.map Prod.fst).Nodup)
    (_hok : (marshalMapGo pairs).err = none)
    (hshape : ∀ x ∈ pairs, ∃ v, x.2 = (v, Marshal v) ∧ (Marshal v).err = none ∧
      DecodesCanonically v) :
    ∀ rest, ∃ f₀ dv,
      (∀ f, f₀ ≤ f → Unmarshal f ((marshalMapGo pairs).bytes ++ rest) =
        .ok (dv, (marshalMapGo pairs).bytes.length - 1)) ∧
      Marshal (decToGo dv) = marshalMapGo pairs := by
  have hex : ∀ k ∈ sortStrings (pairs.map Prod.fst), ∃ v,
      lookupLast pairs k = some (v, Marshal v) ∧ (Marshal v).err = none ∧
        DecodesCanonically v := by
    intro k hk
    have hkm : k ∈ pairs.map Prod.fst := mem_sortStrings.mp hk
    cases hl : lookupLast pairs k with
    | none => exact absurd ((lookupLast_eq_none _ _).mp hl) (by simp [hkm])
    | some vr =>
      have hmem := lookupLast_some_mem hl
      obtain ⟨v, hv2, hverr, hvdec⟩ := hshape (k, vr) hmem
      exact ⟨v, congrArg some hv2, hverr, hvdec⟩
  have hexb : ∀ k ∈ sortStrings (pairs.map Prod.fst), ∃ v,
      lookupLast pairs k = some (v, Marshal v) ∧ (Marshal v).bytes ≠ [] := by
    intro k hk
    obtain ⟨v, hl, hverr, _⟩ := hex k hk
    obtain ⟨c, bs, hcb, _⟩ := marshal_bytes_cons v hverr
    exact ⟨v, hl, by rw [hcb]; simp⟩
  have hrender : marshalMapGo pairs =
      ⟨cD :: dictBody pairs (sortStrings (pairs.map Prod.fst)) ++ [cE], none⟩ := by
    unfold marshalMapGo
    rw [mapAssemble_render _ _ (by
      intro k hk
      obtain ⟨v, hl, hverr, _⟩ := hex k hk
      exact ⟨v, Marshal v, hl, hverr⟩)]
    rfl
  obtain ⟨ps, hfst, hlook, hbody⟩ := dictBody_eq pairs _ hexb
  have hall : ∀ p ∈ ps, (Marshal p.2).err = none ∧ DecodesCanonically p.2 := by
    intro p hp
    have hk : p.1 ∈ sortStrings (pairs.map Prod.fst) := by
      rw [← hfst]
      exact List.mem_map.mpr ⟨p, hp, rfl⟩
    obtain ⟨v, hl, hverr, hvdec⟩ := hex p.1 hk
    have : some (p.2, Marshal p.2) = some (v, Marshal v) := by rw [← hlook p hp, hl]
    injection this with hpair
    have hv : p.2 = v := congrArg Prod.fst hpair
    rw [hv]
    exact ⟨hverr, hvdec⟩
  have hsorted' : List.Sorted lexLeP (ps.map Prod.fst) := by
    rw [hfst]; exact sortStrings_sorted _
  have hnd' : (ps.map Prod.fst).Nodup := by
    rw [hfst]; exact ((sortStrings_perm _).nodup_iff).mpr hnd
  intro rest
  have hdropX : ((marshalMapGo pairs).bytes ++ rest).drop 1 = dictBodyBytes ps ++ cE :: rest := by
    rw [hrender, ← hbody]
    simp
  obtain ⟨f₂, dps, hmapE, hloop⟩ :=
    dictLoop_decodes ps hall (cE :: rest) ((marshalMapGo pairs).bytes ++ rest) 1 []
      hdropX (Or.inr ⟨rest, rfl⟩) (by simpa using hnd')
  refine ⟨f₂ + 1, .DDict dps, ?_, ?_⟩
  · intro f hf
    cases f with
    | zero => omega
    | succ g =>
      have hg : f₂ ≤ g := by omega
      have hbytes : (marshalMapGo pairs).bytes ++ rest =
          cD :: (dictBody pairs (sortStrings (pairs.map Prod.fst)) ++ cE :: rest) := by
        rw [hrender]
        simp
      rw [hbytes, unmarshal_dict_dispatch, ← hbytes, hloop g hg]
      have hlenb : (marshalMapGo pairs).bytes.length =
          2 + (dictBodyBytes ps).length := by
        rw [hrender, ← hbody]
        simp
        omega
      rw [hlenb]
      simp
  · rw [remarshal_dict ps dps hsorted' hnd' hmapE (fun p hp => (hall p hp).1), hrender, hbody]

lemma decodes_canonically : ∀ (n : Nat) (v : GoValue), sizeOf v ≤ n →
    WFb v = true → (Marshal v).err = none → DecodesCanonically v := by
  intro n
  induction n with
  | zero =>
    intro v hsz
    exfalso
    cases v <;> simp at hsz
  | succ n ih =>
    intro v hsz hwf hok
    cases v with
    | VInt i =>
      intro rest
      refine ⟨1, .DInt i, ?_, rfl⟩
      intro f hf
      cases f with
      | zero => omega
      | succ g =>
        have hb : (Marshal (VInt i)).bytes = cI :: (intToDec i ++ [cE]) := by
          show marshalInt i = _
          unfold marshalInt
          rfl
        have hcons : (Marshal (VInt i)).bytes ++ rest = cI :: ((intToDec i ++ [cE]) ++ rest) := by
          rw [hb]; simp
        rw [hcons, unmarshal_int_dispatch]
        rw [show cI :: ((intToDec i ++ [cE]) ++ rest) = marshalInt i ++ rest by
          unfold marshalInt; simp]
        rw [unmarshalInt_correct]
        show DRes.ok ((DInt i : DecValue), 1 + (intToDec i).length) = _
        have hlen : (Marshal (VInt i)).bytes.length = (intToDec i).length + 2 := by
          rw [hb]; simp
        have hhead : (Marshal (VInt i)).bytes.headI = cI := by rw [hb]; rfl
        rw [hlen, hhead, show tagTrail cI = 1 by unfold tagTrail; simp]
        rw [show (intToDec i).length + 2 - 1 = 1 + (intToDec i).length by omega]
    | VString s =>
      intro rest
      refine ⟨1, .DString s, ?_, rfl⟩
      intro f hf
      cases f with
      | zero => omega
      | succ g =>
        obtain ⟨d, ms', hms, hd1, hd2⟩ := marshalString_cons s
        have hb : (Marshal (VString s)).bytes = marshalString s := rfl
        have hcons : (Marshal (VString s)).bytes ++ rest = d :: (ms' ++ rest) := by
          rw [hb, hms]; simp
        rw [hcons, unmarshal_string_dispatch g d _ (by unfold cI; omega) (by unfold cL; omega)
          (by unfold cD; omega)]
        rw [show d :: (ms' ++ rest) = marshalString s ++ rest by rw [hms]; simp]
        rw [unmarshalString_correct]
        show DRes.ok ((DString s : DecValue), (marshalString s).length) = _
        have hhead : (Marshal (VString s)).bytes.headI = d := by rw [hb, hms]; rfl
        rw [hhead, tagTrail_digit hd1 hd2, hb]
        simp
    | VBytes b =>
      intro rest
      refine ⟨1, .DString b, ?_, rfl⟩
      intro f hf
      cases f with
      | zero => omega
      | succ g =>
        obtain ⟨d, ms', hms, hd1, hd2⟩ := marshalString_cons b
        have hb : (Marshal (VBytes b)).bytes = marshalString b := rfl
        have hcons : (Marshal (VBytes b)).bytes ++ rest = d :: (ms' ++ rest) := by
          rw [hb, hms]; simp
        rw [hcons, unmarshal_string_dispatch g d _ (by unfold cI; omega) (by unfold cL; omega)
          (by unfold cD; omega)]
        rw [show d :: (ms' ++ rest) = marshalString b ++ rest by rw [hms]; simp]
        rw [unmarshalString_correct]
        show DRes.ok ((DString b : DecValue), (marshalString b).length) = _
        have hhead : (Marshal (VBytes b)).bytes.headI = d := by rw [hb, hms]; rfl
        rw [hhead, tagTrail_digit hd1 hd2, hb]
        simp
    | VList xs =>
      have hallok : ∀ x ∈ xs, (Marshal x).err = none := marshal_list_ok hok
      have hwfl : WFbList xs = true := hwf
      have hall : ∀ x ∈ xs, (Marshal x).err = none ∧ DecodesCanonically x := by
        intro x hx
        refine ⟨hallok x hx, ih x ?_ (WFbList_mem hwfl hx) (hallok x hx)⟩
        have := sizeOf_mem_list hx
        omega
      intro rest
      have hb := marshal_list_bytes hok
      have hbb : (Marshal (VList xs)).bytes =
          cL :: (xs.map fun x => (Marshal x).bytes).flatten ++ [cE] := by rw [hb]
      have hdrop1 : (((Marshal (VList xs)).bytes) ++ rest).drop 1 =
          (xs.map fun x => (Marshal x).bytes).flatten ++ cE :: rest := by
        rw [hbb]; simp
      obtain ⟨f₂, dvs, hmap, hloop⟩ :=
        listLoop_decodes xs hall rest ((Marshal (VList xs)).bytes ++ rest) 1 [] hdrop1
      refine ⟨f₂ + 1, .DList dvs, ?_, ?_⟩
      · intro f hf
        cases f with
        | zero => omega
        | succ g =>
          have hg : f₂ ≤ g := by omega
          have hcons : (Marshal (VList xs)).bytes ++ rest =
              cL :: ((xs.map fun x => (Marshal x).bytes).flatten ++ cE :: rest) := by
            rw [hbb]; simp
          rw [hcons, unmarshal_list_dispatch, ← hcons, hloop g hg]
          have hlen : (Marshal (VList xs)).bytes.length =
              (xs.map fun x => (Marshal x).bytes).flatten.length + 2 := by
            rw [hbb]; simp
          have hhead : (Marshal (VList xs)).bytes.headI = cL := by rw [hbb]; rfl
          rw [hlen, hhead, show tagTrail cL = 1 by unfold tagTrail; simp]
          rw [show (xs.map fun x => (Marshal x).bytes).flatten.length + 2 - 1 =
            1 + (xs.map fun x => (Marshal x).bytes).flatten.length by omega]
          simp
      · show Marshal (VList (decListToGo dvs)) = _
        show marshalListGo (marshalElems (decListToGo dvs)) = _
        rw [marshalElems_eq_map, hmap, ← marshalElems_eq_map]
        rfl
    | VMap entries =>
      have hwf' : (entries.map Prod.fst).Nodup ∧ WFbPairs entries = true := by
        have h := hwf
        simp only [WFb, Bool.and_eq_true, decide_eq_true_eq] at h
        exact h
      have hndm : ((marshalEntries entries).map Prod.fst).Nodup := by
        rw [marshalEntries_map_fst]; exact hwf'.1
      have hvalsok := marshal_map_values_ok (marshalEntries entries) hndm hok
      have hshape : ∀ x ∈ marshalEntries entries, ∃ v, x.2 = (v, Marshal v) ∧
          (Marshal v).err = none ∧ DecodesCanonically v := by
        intro x hx
        have hx' := hx
        rw [marshalEntries_eq_map] at hx'
        obtain ⟨p, hp, hpx⟩ := List.mem_map.mp hx'
        have herr : (Marshal p.2).err = none := by
          have h1 := hvalsok x hx
          rw [← hpx] at h1
          exact h1
        refine ⟨p.2, ?_, herr, ?_⟩
        · rw [← hpx]
        · refine ih p.2 ?_ (WFbPairs_mem hwf'.2 hp) herr
          have := sizeOf_mem_pairs hp
          omega
      have hfull := dict_decodes (marshalEntries entries) hndm hok hshape
      intro rest
      obtain ⟨f₀, dv, hdec, hrem⟩ := hfull rest
      refine ⟨f₀, dv, ?_, hrem⟩
      intro f hf
      have hhead : (Marshal (VMap entries)).bytes.headI = cD := by
        obtain ⟨s, hs⟩ := mapAssemble_bytes_prefix (marshalEntries entries) _ [cD] hok
        show (marshalMapGo (marshalEntries entries)).bytes.headI = cD
        unfold marshalMapGo
        rw [hs]
        rfl
      rw [hhead, show tagTrail cD = 1 by unfold tagTrail; simp]
      exact hdec f hf
    | VStruct fields =>
      have hwff : WFbFields fields = true := hwf
      have hnds : ((structAssoc (marshalFields fields)).map Prod.fst).Nodup :=
        structAssoc_nodup _
      have hvalsok := marshal_map_values_ok (structAssoc (marshalFields fields)) hnds hok
      have hshape : ∀ x ∈ structAssoc (marshalFields fields), ∃ v, x.2 = (v, Marshal v) ∧
          (Marshal v).err = none ∧ DecodesCanonically v := by
        intro x hx
        obtain ⟨k, vr⟩ := x
        rcases structAssocAux_shape (marshalFields fields) [] hx with ⟨f', hf', hfv⟩ | h'
        · rw [marshalFields_eq_map] at hf'
          obtain ⟨g', hg', hge⟩ := List.mem_map.mp hf'
          have hvr : vr = (g'.2, Marshal g'.2) := by rw [hfv, ← hge]
          have herr : (Marshal g'.2).err = none := by
            have h1 := hvalsok (k, vr) hx
            rw [hvr] at h1
            exact h1
          refine ⟨g'.2, hvr, herr, ?_⟩
          refine ih g'.2 ?_ (WFbFields_mem hwff hg') herr
          have := sizeOf_mem_fields hg'
          omega
        · cases h'
      have hfull := dict_decodes (structAssoc (marshalFields fields)) hnds hok hshape
      intro rest
      obtain ⟨f₀, dv, hdec, hrem⟩ := hfull rest
      refine ⟨f₀, dv, ?_, hrem⟩
      intro f hf
      have hhead : (Marshal (VStruct fields)).bytes.headI = cD := by
        obtain ⟨s, hs⟩ := mapAssemble_bytes_prefix (structAssoc (marshalFields fields)) _ [cD] hok
        show (marshalMapGo (structAssoc (marshalFields fields))).bytes.headI = cD
        unfold marshalMapGo
        rw [hs]
        rfl
      rw [hhead, show tagTrail cD = 1 by unfold tagTrail; simp]
      exact hdec f hf
    | VComplex =>
      intro rest
      exact absurd hok (by decide)

lemma dict_setup (pairs : List (List Nat × GoValue × GoResult))
    (hnd : (pairs.map Prod.fst).Nodup)
    (hshape : ∀ x ∈ pairs, ∃ v, x.2 = (v, Marshal v) ∧ (Marshal v).err = none ∧
      DecodesCanonically v) :
    ∃ ps : List (List Nat × GoValue),
      (marshalMapGo pairs).bytes = cD :: dictBodyBytes ps ++ [cE] ∧
      List.Sorted lexLeP (ps.map Prod.fst) ∧ (ps.map Prod.fst).Nodup ∧
      (∀ p ∈ ps, p.1 ∈ pairs.map Prod.fst) ∧
      (∀ p ∈ ps, (Marshal p.2).err = none ∧ DecodesCanonically p.2) := by
  have hex : ∀ k ∈ sortStrings (pairs.map Prod.fst), ∃ v,
      lookupLast pairs k = some (v, Marshal v) ∧ (Marshal v).err = none ∧
        DecodesCanonically v := by
    intro k hk
    have hkm : k ∈ pairs.map Prod.fst := mem_sortStrings.mp hk
    cases hl : lookupLast pairs k with
    | none => exact absurd ((lookupLast_eq_none _ _).mp hl) (by simp [hkm])
    | some vr =>
      have hmem := lookupLast_some_mem hl
      obtain ⟨v, hv2, hverr, hvdec⟩ := hshape (k, vr) hmem
      exact ⟨v, congrArg some hv2, hverr, hvdec⟩
  have hexb : ∀ k ∈ sortStrings (pairs.map Prod.fst), ∃ v,
      lookupLast pairs k = some (v, Marshal v) ∧ (Marshal v).bytes ≠ [] := by
    intro k hk
    obtain ⟨v, hl, hverr, _⟩ := hex k hk
    obtain ⟨c, bs, hcb, _⟩ := marshal_bytes_cons v hverr
    exact ⟨v, hl, by rw [hcb]; simp⟩
  have hrender : marshalMapGo pairs =
      ⟨cD :: dictBody pairs (sortStrings (pairs.map Prod.fst)) ++ [cE], none⟩ := by
    unfold marshalMapGo
    rw [mapAssemble_render _ _ (by
      intro k hk
      obtain ⟨v, hl, hverr, _⟩ := hex k hk
      exact ⟨v, Marshal v, hl, hverr⟩)]
    rfl
  obtain ⟨ps, hfst, hlook, hbody⟩ := dictBody_eq pairs _ hexb
  have hall : ∀ p ∈ ps, (Marshal p.2).err = none ∧ DecodesCanonically p.2 := by
    intro p hp
    have hk : p.1 ∈ sortStrings (pairs.map Prod.fst) := by
      rw [← hfst]
      exact List.mem_map.mpr ⟨p, hp, rfl⟩
    obtain ⟨v, hl, hverr, hvdec⟩ := hex p.1 hk
    have : some (p.2, Marshal p.2) = some (v, Marshal v) := by rw [← hlook p hp, hl]
    injection this with hpair
    have hv : p.2 = v := congrArg Prod.fst hpair
    rw [hv]
    exact ⟨hverr, hvdec⟩
  refine ⟨ps, ?_, ?_, ?_, ?_, hall⟩
  · rw [hrender, ← hbody]
  · rw [hfst]; exact sortStrings_sorted _
  · rw [hfst]; exact ((sortStrings_perm _).nodup_iff).mpr hnd
  · intro p hp
    have h1 : p.1 ∈ ps.map Prod.fst := List.mem_map.mpr ⟨p, hp, rfl⟩
    rw [hfst] at h1
    exact mem_sortStrings.mp h1

lemma vmap_hshape (entries : List (List Nat × GoValue))
    (hwf : WFb (VMap entries) = true) (hok : (Marshal (VMap entries)).err = none) :
    ((marshalEntries entries).map Prod.fst).Nodup ∧
    ∀ x ∈ marshalEntries entries, ∃ v, x.2 = (v, Marshal v) ∧ (Marshal v).err = none ∧
      DecodesCanonically v := by
  have hwf' : (entries.map Prod.fst).Nodup ∧ WFbPairs entries = true := by
    have h := hwf
    simp only [WFb, Bool.and_eq_true, decide_eq_true_eq] at h
    exact h
  have hndm : ((marshalEntries entries).map Prod.fst).Nodup := by
    rw [marshalEntries_map_fst]; exact hwf'.1
  have hvalsok := marshal_map_values_ok (marshalEntries entries) hndm hok
  refine ⟨hndm, ?_⟩
  intro x hx
  have hx' := hx
  rw [marshalEntries_eq_map] at hx'
  obtain ⟨p, hp, hpx⟩ := List.mem_map.mp hx'
  have herr : (Marshal p.2).err = none := by
    have h1 := hvalsok x hx
    rw [← hpx] at h1
    exact h1
  refine ⟨p.2, ?_, herr, ?_⟩
  · rw [← hpx]
  · exact decodes_canonically (sizeOf p.2) p.2 le_rfl (WFbPairs_mem hwf'.2 hp) herr

lemma dictStructLoop_unmatched (ps : List (List Nat × GoValue)) (fields : List FieldInfo)
    (hall : ∀ p ∈ ps, (Marshal p.2).err = none ∧ DecodesCanonically p.2)
    (hnomatch : ∀ p ∈ ps, fieldWithNameOrTag fields p.1 = none) :
    ∀ (tailBytes data : List Nat) (i : Nat) (acc : List (Nat × DecValue)),
      data.drop i = dictBodyBytes ps ++ tailBytes →
      (tailBytes = [] ∨ ∃ r', tailBytes = cE :: r') →
      ∃ f₀, ∀ f, f₀ ≤ f →
        unmarshalDictStructLoop f data fields i acc =
          .ok (acc, i + (dictBodyBytes ps).length) := by
  induction ps with
  | nil =>
    intro tailBytes data i acc hdrop htail
    refine ⟨1, ?_⟩
    intro f hf
    cases f with
    | zero => omega
    | succ g =>
      simp only [dictBodyBytes, List.map_nil, List.flatten_nil, List.nil_append] at hdrop
      rcases htail with h | ⟨r', h⟩
      · rw [h] at hdrop
        simp only [unmarshalDictStructLoop, hdrop]
        simp [dictBodyBytes]
      · rw [h] at hdrop
        simp only [unmarshalDictStructLoop, hdrop]
        simp [dictBodyBytes]
  | cons p ps ih =>
    obtain ⟨k, v⟩ := p
    intro tailBytes data i acc hdrop htail
    have hp := hall (k, v) (List.mem_cons_self _ _)
    have hbody : dictBodyBytes ((k, v) :: ps) =
        (marshalString k ++ (Marshal v).bytes) ++ dictBodyBytes ps := by
      simp [dictBodyBytes]
    have hdrop' : data.drop i =
        marshalString k ++ ((Marshal v).bytes ++ (dictBodyBytes ps ++ tailBytes)) := by
      rw [hdrop, hbody]
      simp
    obtain ⟨d, ms', hms, hd1, hd2⟩ := marshalString_cons k
    obtain ⟨c', bs', henc', hce'⟩ := marshal_bytes_cons v hp.1
    have hdrop₂ : data.drop (i + (marshalString k).length) =
        (Marshal v).bytes ++ (dictBodyBytes ps ++ tailBytes) := by
      rw [← List.drop_drop, hdrop', List.drop_left]
    obtain ⟨f₁, dv, hdec, hremarshal⟩ := hp.2 (dictBodyBytes ps ++ tailBytes)
    have hdrop₃ : data.drop (i + (marshalString k).length + (Marshal v).bytes.length) =
        dictBodyBytes ps ++ tailBytes := by
      rw [← List.drop_drop, hdrop₂, List.drop_left]
    obtain ⟨f₂, hloop⟩ := ih (fun q hq => hall q (List.mem_cons_of_mem _ hq))
        (fun q hq => hnomatch q (List.mem_cons_of_mem _ hq)) tailBytes data
        (i + (marshalString k).length + (Marshal v).bytes.length) acc hdrop₃ htail
    refine ⟨max f₁ f₂ + 1, ?_⟩
    intro f hf
    cases f with
    | zero => omega
    | succ g =>
      have hg₁ : f₁ ≤ g := by omega
      have hg₂ : f₂ ≤ g := by omega
      have hcons : data.drop i =
          d :: (ms' ++ ((Marshal v).bytes ++ (dictBodyBytes ps ++ tailBytes))) := by
        rw [hdrop', hms]
        simp
      have hde : d ≠ cE := by unfold cE; omega
      simp only [unmarshalDictStructLoop, hcons, if_neg hde]
      rw [← hcons, hdrop', unmarshalString_correct]
      have hcons₂ : data.drop (i + (marshalString k).length) =
          c' :: (bs' ++ (dictBodyBytes ps ++ tailBytes)) := by
        rw [hdrop₂, henc']
        simp
      simp only [hcons₂]
      rw [← hcons₂, hdrop₂, hdec g hg₁]
      have hhead : (Marshal v).bytes.headI = c' := by rw [henc']; rfl
      have hlen : 1 ≤ (Marshal v).bytes.length := by rw [henc']; simp
      have htrail := tagTrail_le_one c'
      show unmarshalDictStructLoop g data fields
          (i + (marshalString k).length +
            ((Marshal v).bytes.length - tagTrail (Marshal v).bytes.headI) + tagTrail c')
          (match fieldWithNameOrTag fields k with
           | some idx => acc ++ [(idx, dv)]
           | none => acc) = _
      rw [hnomatch (k, v) (List.mem_cons_self _ _)]
      have harith : i + (marshalString k).length +
          ((Marshal v).bytes.length - tagTrail (Marshal v).bytes.headI) + tagTrail c' =
          i + (marshalString k).length + (Marshal v).bytes.length := by
        rw [hhead]
        omega
      rw [harith, hloop g hg₂, hbody]
      simp [Nat.add_assoc]

/-! ### Claim C1: round-trip -/

/-- C1: for every supported, well-formed value `v` (its encoding succeeds;
its maps have distinct keys, as every real Go map does), decoding the
output of `Marshal v` into a generic destination succeeds, and
re-marshalling the decoded value `v2` — which has a different static
shape (struct and byte-slice inputs come back as generic maps and
strings) — produces output byte-identical to `Marshal v`. -/
theorem c1_roundtrip (v : GoValue) (hwf : WFb v = true) (hok : (Marshal v).err = none) :
    ∃ f₀ dv n, (∀ f, f₀ ≤ f → Unmarshal f ((Marshal v).bytes) = .ok (dv, n)) ∧
      Marshal (decToGo dv) = Marshal v := by
  obtain ⟨f₀, dv, hdec, hrem⟩ := decodes_canonically (sizeOf v) v le_rfl hwf hok []
  refine ⟨f₀, dv, (Marshal v).bytes.length - tagTrail (Marshal v).bytes.headI, ?_, hrem⟩
  intro f hf
  have h := hdec f hf
  rwa [List.append_nil] at h

/-- C1 witness: the spec's concrete scenario — a two-field record with
`age = 10`, `name = "John"` round-trips through a generic mapping with
byte-identical re-encoding. -/
theorem c1_roundtrip_witness :
    WFb (VStruct [((strBytes "Age", some (strBytes "age"), true), VInt 10),
      ((strBytes "Name", some (strBytes "name"), true), VString (strBytes "John"))]) = true ∧
    (Marshal (VStruct [((strBytes "Age", some (strBytes "age"), true), VInt 10),
      ((strBytes "Name", some (strBytes "name"), true), VString (strBytes "John"))])).err =
      none ∧
    (∃ f₀ dv n, (∀ f, f₀ ≤ f →
      Unmarshal f ((Marshal (VStruct [((strBytes "Age", some (strBytes "age"), true), VInt 10),
        ((strBytes "Name", some (strBytes "name"), true),
          VString (strBytes "John"))])).bytes) = .ok (dv, n)) ∧
      Marshal (decToGo dv) =
        Marshal (VStruct [((strBytes "Age", some (strBytes "age"), true), VInt 10),
          ((strBytes "Name", some (strBytes "name"), true), VString (strBytes "John"))])) :=
  ⟨by decide, by decide,
   c1_roundtrip
     (VStruct [((strBytes "Age", some (strBytes "age"), true), VInt 10),
       ((strBytes "Name", some (strBytes "name"), true), VString (strBytes "John"))])
     (by decide) (by decide)⟩

/-! ### Claim C8: consumed byte counts (amended part) -/

/-- C8 (amended): every decode reports a byte count by which its caller
advances, but the count is *not* uniformly the full encoding length:
byte-string decodes return the full length (`tagTrail` of a digit is 0),
while integer, list and dictionary decodes return the index of the
terminating `'e'` — one less than the full length (`tagTrail` of
`'i'`/`'l'`/`'d'` is 1); the container loops compensate by skipping one
extra byte after decoding a non-string element. -/
theorem c8_amended (v : GoValue) (hwf : WFb v = true) (hok : (Marshal v).err = none) :
    ∃ f₀ dv, (∀ f, f₀ ≤ f →
      Unmarshal f ((Marshal v).bytes) =
        .ok (dv, (Marshal v).bytes.length - tagTrail (Marshal v).bytes.headI)) ∧
      (∀ i : Int, v = VInt i →
        (Marshal v).bytes.length - tagTrail (Marshal v).bytes.headI =
          (Marshal v).bytes.length - 1) := by
  obtain ⟨f₀, dv, hdec, _⟩ := decodes_canonically (sizeOf v) v le_rfl hwf hok []
  refine ⟨f₀, dv, fun f hf => ?_, ?_⟩
  · have h := hdec f hf
    rwa [List.append_nil] at h
  · intro i hi
    subst hi
    have hhead : (Marshal (VInt i)).bytes.headI = cI := by
      show (marshalInt i).headI = cI
      unfold marshalInt
      rfl
    rw [hhead, show tagTrail cI = 1 by unfold tagTrail; simp]

/-- C8 witness: the amended theorem at `VInt 10`, whose 4-byte encoding
`i10e` is reported as 3 consumed bytes. -/
theorem c8_amended_witness :
    ∃ f₀ dv, (∀ f, f₀ ≤ f →
      Unmarshal f ((Marshal (VInt 10)).bytes) =
        .ok (dv, (Marshal (VInt 10)).bytes.length -
          tagTrail (Marshal (VInt 10)).bytes.headI)) ∧
      (∀ i : Int, VInt 10 = VInt i →
        (Marshal (VInt 10)).bytes.length - tagTrail (Marshal (VInt 10)).bytes.headI =
          (Marshal (VInt 10)).bytes.length - 1) :=
  c8_amended (VInt 10) (by decide) (by decide)

/-! ### Claim C4: unterminated dictionary (amended part) -/

/-- C4 (amended): a dictionary buffer that ends (at a key/value pair
boundary) before the closing `'e'` decodes *successfully*: the loop guard
`i < len(data)` exits at end of buffer and the decode returns the entries
read so far with no error — there is no `UnterminatedContainer` error.
Stated for the encoding of any well-formed map with its final `'e'`
removed. -/
theorem c4_amended (entries : List (List Nat × GoValue))
    (hwf : WFb (VMap entries) = true) (hok : (Marshal (VMap entries)).err = none) :
    ∃ f₀ dv, ∀ f, f₀ ≤ f →
      Unmarshal f ((Marshal (VMap entries)).bytes.dropLast) =
        .ok (dv, (Marshal (VMap entries)).bytes.length - 1) ∧
      (Unmarshal f ((Marshal (VMap entries)).bytes.dropLast)).isErr = false := by
  obtain ⟨hndm, hshape⟩ := vmap_hshape entries hwf hok
  obtain ⟨ps, hb, hsorted, hnd, hkeys, hall⟩ := dict_setup (marshalEntries entries) hndm hshape
  have hbv : (Marshal (VMap entries)).bytes = cD :: dictBodyBytes ps ++ [cE] := hb
  have hdl : (Marshal (VMap entries)).bytes.dropLast = cD :: dictBodyBytes ps := by
    rw [hbv, List.dropLast_concat]
  have hdrop1 : ((Marshal (VMap entries)).bytes.dropLast).drop 1 = dictBodyBytes ps ++ [] := by
    rw [hdl]
    simp
  obtain ⟨f₂, dps, hmapE, hloop⟩ :=
    dictLoop_decodes ps hall [] ((Marshal (VMap entries)).bytes.dropLast) 1 [] hdrop1
      (Or.inl rfl) (by simpa using hnd)
  refine ⟨f₂ + 1, .DDict dps, fun f hf => ?_⟩
  cases f with
  | zero => omega
  | succ g =>
    have hg : f₂ ≤ g := by omega
    have hrun : Unmarshal (g + 1) ((Marshal (VMap entries)).bytes.dropLast) =
        .ok (.DDict dps, (Marshal (VMap entries)).bytes.length - 1) := by
      rw [hdl, unmarshal_dict_dispatch, ← hdl, hloop g hg]
      have hlenb : (Marshal (VMap entries)).bytes.length = 2 + (dictBodyBytes ps).length := by
        rw [hbv]
        simp
        omega
      rw [hlenb]
      simp
    refine ⟨hrun, ?_⟩
    rw [hrun]
    rfl

/-- C4 witness: the amended theorem at the one-entry map `{age: 10}`,
whose encoding minus its final `'e'` still decodes without error. -/
theorem c4_amended_witness :
    ∃ f₀ dv, ∀ f, f₀ ≤ f →
      Unmarshal f ((Marshal (VMap [(strBytes "age", VInt 10)])).bytes.dropLast) =
        .ok (dv, (Marshal (VMap [(strBytes "age", VInt 10)])).bytes.length - 1) ∧
      (Unmarshal f ((Marshal (VMap [(strBytes "age", VInt 10)])).bytes.dropLast)).isErr =
        false :=
  c4_amended [(strBytes "age", VInt 10)] (by decide) (by decide)

/-! ### Claim C6: field resolution (amended part) -/

/-- The matching condition of `fieldWithNameOrTag` exactly as the Go
operator precedence gives it: the raw tag (when present) equals the key,
or the field identifier equals the key — regardless of whether a tag is
present. -/
def fieldMatchesB (fd : FieldInfo) (name : List Nat) : Bool :=
  (match fd.2.1 with | some n => name = n | none => false) || fd.1 = name

lemma fieldAux_cons (fname : List Nat) (tag : Option (List Nat)) (exp : Bool)
    (rest : List FieldInfo) (name : List Nat) (i : Nat) :
    fieldWithNameOrTagAux ((fname, tag, exp) :: rest) name i =
      if fieldMatchesB (fname, tag, exp) name then some i
      else fieldWithNameOrTagAux rest name (i + 1) := rfl

lemma fieldAux_some {name : List Nat} : ∀ {fields : List FieldInfo} {s i : Nat},
    fieldWithNameOrTagAux fields name s = some i →
    ∃ m, ∃ h : m < fields.length, i = s + m ∧
      fieldMatchesB (fields.get ⟨m, h⟩) name = true ∧
      ∀ j (hj : j < fields.length), j < m →
        fieldMatchesB (fields.get ⟨j, hj⟩) name = false := by
  intro fields
  induction fields with
  | nil => intro s i h; cases h
  | cons fd rest ih =>
    intro s i h
    obtain ⟨fname, tag, exp⟩ := fd
    rw [fieldAux_cons] at h
    by_cases hm : fieldMatchesB (fname, tag, exp) name = true
    · rw [if_pos hm] at h
      injection h with hi
      refine ⟨0, by simp, by omega, hm, ?_⟩
      intro j hj hj0
      omega
    · rw [if_neg hm] at h
      obtain ⟨m, hlt, hi, hmm, hbelow⟩ := ih h
      refine ⟨m + 1, by simp; omega, by omega, hmm, ?_⟩
      intro j hj hjm
      cases j with
      | zero =>
        simp only [List.get]
        exact Bool.eq_false_iff.mpr hm
      | succ j' =>
        have hj' : j' < rest.length := by simp at hj; omega
        have := hbelow j' hj' (by omega)
        simpa using this

lemma fieldAux_none {name : List Nat} : ∀ {fields : List FieldInfo} {s : Nat},
    fieldWithNameOrTagAux fields name s = none →
    ∀ j (hj : j < fields.length), fieldMatchesB (fields.get ⟨j, hj⟩) name = false := by
  intro fields
  induction fields with
  | nil => intro s _ j hj; simp at hj
  | cons fd rest ih =>
    intro s h j hj
    obtain ⟨fname, tag, exp⟩ := fd
    rw [fieldAux_cons] at h
    by_cases hm : fieldMatchesB (fname, tag, exp) name = true
    · rw [if_pos hm] at h; cases h
    · rw [if_neg hm] at h
      cases j with
      | zero =>
        simp only [List.get]
        exact Bool.eq_false_iff.mpr hm
      | succ j' =>
        have hj' : j' < rest.length := by simp at hj; omega
        have := ih h j' hj'
        simpa using this

/-- C6 (amended): the resolver scans the fields in declaration order and a
field matches exactly when its *entire raw metadata string* equals the
wire key, or when its identifier equals the key — the identifier
alternative applies *even when metadata is present*; the first match
wins.  A dictionary none of whose keys matches any field decodes without
error, assigning nothing (unknown keys are silently dropped). -/
theorem c6_amended :
    (∀ (fields : List FieldInfo) (name : List Nat) (i : Nat),
      fieldWithNameOrTag fields name = some i →
      ∃ h : i < fields.length,
        fieldMatchesB (fields.get ⟨i, h⟩) name = true ∧
        ∀ j (hj : j < fields.length), j < i →
          fieldMatchesB (fields.get ⟨j, hj⟩) name = false) ∧
    (∀ (fields : List FieldInfo) (name : List Nat),
      fieldWithNameOrTag fields name = none →
      ∀ j (hj : j < fields.length), fieldMatchesB (fields.get ⟨j, hj⟩) name = false) ∧
    (∀ (entries : List (List Nat × GoValue)) (fields : List FieldInfo),
      WFb (VMap entries) = true → (Marshal (VMap entries)).err = none →
      (∀ k ∈ entries.map Prod.fst, fieldWithNameOrTag fields k = none) →
      ∃ f₀, ∀ f, f₀ ≤ f →
        unmarshalDictionaryStruct f ((Marshal (VMap entries)).bytes) fields =
          .ok ([], (Marshal (VMap entries)).bytes.length - 1)) := by
  refine ⟨?_, ?_, ?_⟩
  · intro fields name i h
    obtain ⟨m, hlt, hi, hmm, hbelow⟩ := fieldAux_some h
    have him : i = m := by omega
    subst him
    exact ⟨hlt, hmm, hbelow⟩
  · intro fields name h
    exact fieldAux_none h
  · intro entries fields hwf hok hnomatch
    obtain ⟨hndm, hshape⟩ := vmap_hshape entries hwf hok
    obtain ⟨ps, hb, hsorted, hnd, hkeys, hall⟩ := dict_setup (marshalEntries entries) hndm hshape
    have hbv : (Marshal (VMap entries)).bytes = cD :: dictBodyBytes ps ++ [cE] := hb
    have hpsnone : ∀ p ∈ ps, fieldWithNameOrTag fields p.1 = none := by
      intro p hp
      apply hnomatch
      have h1 := hkeys p hp
      rwa [marshalEntries_map_fst] at h1
    have hdrop1 : ((Marshal (VMap entries)).bytes).drop 1 = dictBodyBytes ps ++ cE :: [] := by
      rw [hbv]
      simp
    obtain ⟨f₂, hloop⟩ := dictStructLoop_unmatched ps fields hall hpsnone (cE :: [])
      ((Marshal (VMap entries)).bytes) 1 [] hdrop1 (Or.inr ⟨[], rfl⟩)
    refine ⟨f₂ + 1, fun f hf => ?_⟩
    cases f with
    | zero => omega
    | succ g =>
      have hg : f₂ ≤ g := by omega
      show unmarshalDictStructLoop (g + 1) ((Marshal (VMap entries)).bytes) fields 1 [] = _
      rw [hloop (g + 1) (by omega)]
      have hlenb : (Marshal (VMap entries)).bytes.length = 2 + (dictBodyBytes ps).length := by
        rw [hbv]
        simp
        omega
      rw [hlenb]
      have h2 : 2 + (dictBodyBytes ps).length - 1 = 1 + (dictBodyBytes ps).length := by omega
      rw [h2]

/-- Witness for `c6_amended` at concrete inputs: the key "age" matches the
tagged field at index 0, and a marshalled dictionary with the single
unmatched key "zz" decodes against those fields to an empty accumulator
with the cursor on the final terminator. -/
theorem c6_amended_witness :
    (∃ h : (0 : Nat) <
        ([(strBytes "Age", some (strBytes "age"), true)] : List FieldInfo).length,
      fieldMatchesB
        (([(strBytes "Age", some (strBytes "age"), true)] : List FieldInfo).get ⟨0, h⟩)
        (strBytes "age") = true ∧
      ∀ j (hj : j < ([(strBytes "Age", some (strBytes "age"), true)] :
          List FieldInfo).length), j < 0 →
        fieldMatchesB
          (([(strBytes "Age", some (strBytes "age"), true)] : List FieldInfo).get ⟨j, hj⟩)
          (strBytes "age") = false) ∧
    (∃ f₀, ∀ f, f₀ ≤ f →
      unmarshalDictionaryStruct f ((Marshal (VMap [(strBytes "zz", VInt 1)])).bytes)
        [(strBytes "Age", some (strBytes "age"), true)] =
        .ok ([], (Marshal (VMap [(strBytes "zz", VInt 1)])).bytes.length - 1)) :=
  ⟨c6_amended.1 [(strBytes "Age", some (strBytes "age"), true)] (strBytes "age") 0
     (by decide),
   c6_amended.2.2 [(strBytes "zz", VInt 1)] [(strBytes "Age", some (strBytes "age"), true)]
     (by decide) (by decide) (by decide)⟩
